import Mathlib

/-!
Verification model of the multi-fidelity on-disk telemetry index
implemented in `src/index.py`.

Modelling conventions:
* Python floats (timestamps and values) are modelled as rationals `ℚ`.
* ISO-8601 date strings are modelled by the epoch-seconds value they denote:
  `datetime.fromisoformat(s).timestamp()` and
  `datetime.fromtimestamp(t).isoformat()` are treated as the two directions
  of one bijection, so a public `Datapoint` carries `date : ℚ` directly.
* The filesystem is modelled as two total functions from shard paths to the
  decoded contents of the corresponding file (raw records for the `full`
  tier, aggregate records for the other tiers); a missing file and an empty
  file are both the empty list, exactly as the readers in the source treat
  them.  A shard path is kept structured (fidelity directory, dataset id,
  the intermediate directory numbers and the file name number), which is
  faithful because distinct component sequences give distinct paths.
* Python exceptions are modelled with an explicit error value; a call that
  raises returns the mutated state built so far together with the error,
  matching the in-place mutation of the Python object.
-/

unseal Rat.add Rat.sub Rat.mul Rat.inv

/-- Python `int(q)` on a real value: truncation toward zero. -/
def pyInt (q : ℚ) : ℤ :=
  if 0 ≤ q then q.floor else -((-q).floor)

/-- `int(int(t / duration) * duration)`, the bin label used by both
`Index._aggregate` and `Index._bin` in the source. -/
def bin_id (duration t : ℚ) : ℤ :=
  pyInt ((pyInt (t / duration) : ℚ) * duration)

/-- Python `min(window)` for a nonempty list (the source only calls it on
nonempty windows; the empty case is given a junk value). -/
def pyMin : List ℚ → ℚ
  | [] => 0
  | x :: xs => xs.foldl min x

/-- Python `max(window)` for a nonempty list. -/
def pyMax : List ℚ → ℚ
  | [] => 0
  | x :: xs => xs.foldl max x

/-- Python `sum(window)`. -/
def pySum (l : List ℚ) : ℚ := l.foldl (· + ·) 0

/-- Public API record (`src/model/data.py`, class `Datapoint`); the `date`
string is modelled by the epoch timestamp it denotes. -/
structure Datapoint where
  date : ℚ
  value : ℚ
deriving DecidableEq

/-- Public API record (`src/model/data.py`, class `AggregatedDatapoint`). -/
structure AggregatedDatapoint where
  date : ℚ
  min_value : ℚ
  mean_value : ℚ
  max_value : ℚ
deriving DecidableEq

/-- The seven fidelity tiers (`src/model/fidelity.py`). -/
inductive Fidelity
  | FIDELITY_FULL
  | FIDELITY_1
  | FIDELITY_10
  | FIDELITY_100
  | FIDELITY_1000
  | FIDELITY_10000
  | FIDELITY_100000
deriving DecidableEq

/-- Internal raw record (`index.py`, `_Datapoint`). -/
structure DatapointRec where
  timestamp : ℚ
  value : ℚ
deriving DecidableEq

/-- Internal aggregate record (`index.py`, `_AggregatedDatapoint`).
`count` is a Python `int` produced by `len`, hence a natural number. -/
structure AggRec where
  timestamp : ℤ
  min_value : ℚ
  max_value : ℚ
  sum_values : ℚ
  count : ℕ
deriving DecidableEq

/-- `DATAPOINT_GROUP_SIZE` from `index.py`. -/
def DATAPOINT_GROUP_SIZE : ℚ := 5000

/-- `MAX_DURATION_FULL = DATAPOINT_GROUP_SIZE / 10`. -/
def MAX_DURATION_FULL : ℚ := DATAPOINT_GROUP_SIZE / 10

/-- `MAX_DURATION_1 = DATAPOINT_GROUP_SIZE`. -/
def MAX_DURATION_1 : ℚ := DATAPOINT_GROUP_SIZE

/-- `MAX_DURATION_10 = MAX_DURATION_1 * 10`. -/
def MAX_DURATION_10 : ℚ := MAX_DURATION_1 * 10

/-- `MAX_DURATION_100 = MAX_DURATION_1 * 100`. -/
def MAX_DURATION_100 : ℚ := MAX_DURATION_1 * 100

/-- `MAX_DURATION_1000 = MAX_DURATION_1 * 1000`. -/
def MAX_DURATION_1000 : ℚ := MAX_DURATION_1 * 1000

/-- `MAX_DURATION_10000 = MAX_DURATION_1 * 10000`. -/
def MAX_DURATION_10000 : ℚ := MAX_DURATION_1 * 10000

/-- `MAX_DURATION_100000 = MAX_DURATION_1 * 100000`. -/
def MAX_DURATION_100000 : ℚ := MAX_DURATION_1 * 100000

/-- The per-fidelity file span, i.e. the `step` / `MAX_DURATION_*` constant
selected by the `if/elif` chains of `_subpath` and `_subpaths`. -/
def max_duration : Fidelity → ℚ
  | .FIDELITY_FULL => MAX_DURATION_FULL
  | .FIDELITY_1 => MAX_DURATION_1
  | .FIDELITY_10 => MAX_DURATION_10
  | .FIDELITY_100 => MAX_DURATION_100
  | .FIDELITY_1000 => MAX_DURATION_1000
  | .FIDELITY_10000 => MAX_DURATION_10000
  | .FIDELITY_100000 => MAX_DURATION_100000

/-- The aggregation period passed to `_aggregate` for each aggregated tier
(`put` passes 1.0, 10.0, ..., 100000.0); `FIDELITY_FULL` has none. -/
def agg_period : Fidelity → ℚ
  | .FIDELITY_FULL => 0
  | .FIDELITY_1 => 1
  | .FIDELITY_10 => 10
  | .FIDELITY_100 => 100
  | .FIDELITY_1000 => 1000
  | .FIDELITY_10000 => 10000
  | .FIDELITY_100000 => 100000

/-- A character accepted by `LEGAL_DATASET_CHARS = [a-zA-Z0-9._-]`. -/
def legalChar (c : Char) : Bool :=
  c.isAlpha || c.isDigit || c == '.' || c == '_' || c == '-'

/-- `LEGAL_DATASET_CHARS.fullmatch(dataset_id) and ".." not in dataset_id`:
the validity test applied by `Index.put`. -/
def legalDatasetId (s : String) : Bool :=
  (!s.data.isEmpty && s.data.all legalChar) && !(decide (['.', '.'] <:+: s.data))

/-- The errors the index can raise (`ValueError`s in the source, named here
after the spec's taxonomy). -/
inductive Err
  | invalidId
  | negativeTimestamp
  | windowTooLarge
deriving DecidableEq

/-- A structured shard path: the fidelity directory, the dataset directory,
the intermediate directory numbers (`a`, `b`, `c` as applicable for the
tier) and the file name number. -/
structure ShardPath where
  fidelity : Fidelity
  dataset_id : String
  dirs : List ℤ
  name : ℤ
deriving DecidableEq

/-- `Index._subpath`: the (fidelity, dataset, timestamp) → path mapping.
Returns `none` for a negative timestamp (the source raises `ValueError`). -/
def subpath (timestamp : ℚ) (dataset_id : String) (fid : Fidelity) :
    Option ShardPath :=
  if timestamp < 0 then none
  else
    let a := pyInt (timestamp / 10000000)
    let b := pyInt (timestamp / 100000)
    let c := pyInt (timestamp / 1000)
    match fid with
    | .FIDELITY_FULL =>
      some ⟨fid, dataset_id, [a, b, c], pyInt (timestamp / MAX_DURATION_FULL)⟩
    | .FIDELITY_1 =>
      some ⟨fid, dataset_id, [a, b], pyInt (timestamp / MAX_DURATION_1)⟩
    | .FIDELITY_10 =>
      some ⟨fid, dataset_id, [a, b], pyInt (timestamp / MAX_DURATION_10)⟩
    | .FIDELITY_100 =>
      some ⟨fid, dataset_id, [a], pyInt (timestamp / MAX_DURATION_100)⟩
    | .FIDELITY_1000 =>
      some ⟨fid, dataset_id, [a], pyInt (timestamp / MAX_DURATION_1000)⟩
    | .FIDELITY_10000 =>
      some ⟨fid, dataset_id, [], pyInt (timestamp / MAX_DURATION_10000)⟩
    | .FIDELITY_100000 =>
      some ⟨fid, dataset_id, [], pyInt (timestamp / MAX_DURATION_100000)⟩

/-- `Index._recommended_fidelity`. -/
def recommended_fidelity (start_dt end_dt : ℚ) : Fidelity :=
  let duration_s := end_dt - start_dt
  if duration_s < MAX_DURATION_FULL then .FIDELITY_FULL
  else if duration_s < MAX_DURATION_1 then .FIDELITY_1
  else if duration_s < MAX_DURATION_10 then .FIDELITY_10
  else if duration_s < MAX_DURATION_100 then .FIDELITY_100
  else if duration_s < MAX_DURATION_1000 then .FIDELITY_1000
  else if duration_s < MAX_DURATION_10000 then .FIDELITY_10000
  else .FIDELITY_100000

/-- The loop of `Index._subpaths`: starting from `t_start`, emit a timestamp,
stop once it exceeds `t_end`, else advance by `step` and repeat. -/
def stepTimes (t_end step : ℚ) (hstep : 0 < step) (t_start : ℚ) : List ℚ :=
  if t_end < t_start then [t_start]
  else t_start :: stepTimes t_end step hstep (t_start + step)
termination_by (⌊(t_end - t_start) / step⌋ + 1).toNat
decreasing_by
  have hle : t_start ≤ t_end := le_of_not_lt (by assumption)
  have h1 : (t_end - (t_start + step)) / step = (t_end - t_start) / step - 1 := by
    field_simp
    ring
  have h2 : ⌊(t_end - (t_start + step)) / step⌋ = ⌊(t_end - t_start) / step⌋ - 1 := by
    rw [h1]
    exact_mod_cast Int.floor_sub_int ((t_end - t_start) / step) 1
  have h3 : 0 ≤ ⌊(t_end - t_start) / step⌋ :=
    Int.floor_nonneg.2 (div_nonneg (sub_nonneg.2 hle) hstep.le)
  rw [h2]
  omega

/-- The body of the `_subpaths` loop applied to the emitted timestamps:
build the path list, aborting the whole call if `_subpath` raises. -/
def pathsFor (dataset_id : String) (fid : Fidelity) :
    List ℚ → Except Err (List ShardPath)
  | [] => .ok []
  | t :: rest =>
    match subpath t dataset_id fid with
    | none => .error .negativeTimestamp
    | some p =>
      match pathsFor dataset_id fid rest with
      | .error e => .error e
      | .ok ps => .ok (p :: ps)

/-- `Index._subpaths`: the shard paths covering `[t_start, t_end]` at the
given fidelity (`max_steps` is the default 500 used by every caller). -/
def subpaths (t_start t_end : ℚ) (dataset_id : String) (fid : Fidelity) :
    Except Err (List ShardPath) :=
  let step := max_duration fid
  if (t_end - t_start) / step > 500 then .error .windowTooLarge
  else pathsFor dataset_id fid
    (stepTimes t_end step (by cases fid <;> decide : (0:ℚ) < max_duration fid) t_start)

/-- The loop body of `Index._bin`, generic in the record type: `tsf` reads
the record's `timestamp` field.  State: emitted groups, current bin label
`last_t`, current window. -/
def binGo {α : Type} (duration : ℚ) (tsf : α → ℚ) (out : List (ℤ × List α))
    (last_t : ℤ) (window : List α) : List α → List (ℤ × List α)
  | [] => out ++ [(last_t, window)]
  | p :: rest =>
    let cur_t := bin_id duration (tsf p)
    if cur_t ≠ last_t then
      binGo duration tsf (out ++ [(last_t, window)]) cur_t [p] rest
    else
      binGo duration tsf out last_t (window ++ [p]) rest

/-- `Index._bin`: group records into buckets of the given duration. -/
def bin {α : Type} (points : List α) (duration : ℚ) (tsf : α → ℚ) :
    List (ℤ × List α) :=
  match points with
  | [] => []
  | p :: rest => binGo duration tsf [] (bin_id duration (tsf p)) [p] rest

/-- The aggregate record built when a window is flushed by `_aggregate`. -/
def mkAggRec (t : ℤ) (window : List ℚ) : AggRec :=
  ⟨t, pyMin window, pyMax window, pySum window, window.length⟩

/-- The loop body of `Index._aggregate`.  State: emitted aggregates, current
bin label, current window of values. -/
def aggGo (duration : ℚ) (out : List AggRec) (b : ℤ) (window : List ℚ) :
    List DatapointRec → List AggRec
  | [] => out ++ [mkAggRec b window]
  | p :: rest =>
    let cur := bin_id duration p.timestamp
    if cur ≠ b then
      aggGo duration (out ++ [mkAggRec b window]) cur [p.value] rest
    else
      aggGo duration out b (window ++ [p.value]) rest

/-- `Index._aggregate`: one aggregate per run of equal bin labels. -/
def aggregate (points : List DatapointRec) (duration : ℚ) : List AggRec :=
  match points with
  | [] => []
  | p :: rest => aggGo duration [] (bin_id duration p.timestamp) [p.value] rest

/-- `Index._combine_aggregations`: two-cursor merge of aggregate lists,
combining records with equal timestamps. -/
def combine_aggregations : List AggRec → List AggRec → List AggRec
  | [], points2 => points2
  | points1, [] => points1
  | p1 :: rest1, p2 :: rest2 =>
    if p1.timestamp < p2.timestamp then
      p1 :: combine_aggregations rest1 (p2 :: rest2)
    else if p2.timestamp < p1.timestamp then
      p2 :: combine_aggregations (p1 :: rest1) rest2
    else
      ⟨p1.timestamp, min p1.min_value p2.min_value, max p1.max_value p2.max_value,
        p1.sum_values + p2.sum_values, p1.count + p2.count⟩ ::
        combine_aggregations rest1 rest2
termination_by l1 l2 => l1.length + l2.length

/-- Contents of the full-fidelity files: shard path → decoded raw records.
A path never written holds `[]`, matching `_read_datapoints` on a missing
file. -/
def FullStore : Type := ShardPath → List DatapointRec

/-- Contents of the aggregate files: shard path → decoded aggregate
records. -/
def AggStore : Type := ShardPath → List AggRec

/-- Point update of a full-tier store. -/
def FullStore.update (σ : FullStore) (p : ShardPath) (v : List DatapointRec) :
    FullStore :=
  fun q => if q = p then v else σ q

/-- Point update of an aggregate-tier store. -/
def AggStore.update (σ : AggStore) (p : ShardPath) (v : List AggRec) :
    AggStore :=
  fun q => if q = p then v else σ q

/-- `Index._write_datapoints`: open in append mode and write the records. -/
def write_datapoints (σ : FullStore) (p : ShardPath)
    (datapoints : List DatapointRec) : FullStore :=
  σ.update p (σ p ++ datapoints)

/-- `Index._write_agg_datapoints`: read the existing records, combine with
the incoming ones, rewrite the file whole. -/
def write_agg_datapoints (σ : AggStore) (p : ShardPath)
    (datapoints : List AggRec) : AggStore :=
  σ.update p (combine_aggregations (σ p) datapoints)

/-- The full-tier loop of `Index.put`: for each bin, compute the subpath and
append the bin's records; a negative bin timestamp aborts with the store
written so far (the source raises out of the loop). -/
def putFullBins (dataset_id : String) (σ : FullStore) :
    List (ℤ × List DatapointRec) → FullStore × Option Err
  | [] => (σ, none)
  | (t, w) :: rest =>
    match subpath (t : ℚ) dataset_id .FIDELITY_FULL with
    | none => (σ, some .negativeTimestamp)
    | some p => putFullBins dataset_id (write_datapoints σ p w) rest

/-- One aggregated tier's inner loop of `Index.put`. -/
def putAggBins (dataset_id : String) (fid : Fidelity) (σ : AggStore) :
    List (ℤ × List AggRec) → AggStore × Option Err
  | [] => (σ, none)
  | (t, w) :: rest =>
    match subpath (t : ℚ) dataset_id fid with
    | none => (σ, some .negativeTimestamp)
    | some p => putAggBins dataset_id fid (write_agg_datapoints σ p w) rest

/-- One aggregated tier of `Index.put`: aggregate the sorted raw points at
the tier's period, bin the aggregates by the tier's file span, write each
bin. -/
def putAggTier (dataset_id : String) (sorted : List DatapointRec)
    (fid : Fidelity) (σ : AggStore) : AggStore × Option Err :=
  putAggBins dataset_id fid σ
    (bin (aggregate sorted (agg_period fid)) (max_duration fid)
      (fun a => (a.timestamp : ℚ)))

/-- The six aggregated-tier blocks of `Index.put`, run in source order with
the source's abort-on-error sequencing. -/
def putAggTiers (dataset_id : String) (sorted : List DatapointRec)
    (σ : AggStore) : List Fidelity → AggStore × Option Err
  | [] => (σ, none)
  | f :: rest =>
    match putAggTier dataset_id sorted f σ with
    | (σ', some e) => (σ', some e)
    | (σ', none) => putAggTiers dataset_id sorted σ' rest

/-- The aggregated tiers in the order `put` writes them. -/
def aggFidelities : List Fidelity :=
  [.FIDELITY_1, .FIDELITY_10, .FIDELITY_100, .FIDELITY_1000,
    .FIDELITY_10000, .FIDELITY_100000]

/-- Sorting step of `Index.put` (`_points.sort(key=lambda x: x.timestamp)`,
a stable sort by timestamp). -/
def sortPts (l : List DatapointRec) : List DatapointRec :=
  l.mergeSort (fun a b => decide (a.timestamp ≤ b.timestamp))

/-- The index state: the two on-disk stores plus the two counters. -/
structure IndexState where
  fullStore : FullStore
  aggStore : AggStore
  num_puts : ℕ
  num_gets : ℕ

/-- A freshly opened index over an empty backing store. -/
def initIndex : IndexState :=
  ⟨fun _ => [], fun _ => [], 0, 0⟩

/-- The internal `_Datapoint` list `put` builds from the public samples
(`datetime.fromisoformat(point.date).timestamp()` is the identity in this
model). -/
def rawPoints (points : List Datapoint) : List DatapointRec :=
  points.map fun p => ⟨p.date, p.value⟩

/-- `Index.put`. -/
def put (st : IndexState) (dataset_id : String) (points : List Datapoint) :
    IndexState × Option Err :=
  let st := { st with num_puts := st.num_puts + 1 }
  if !legalDatasetId dataset_id then (st, some .invalidId)
  else
    let sorted := sortPts (rawPoints points)
    match putFullBins dataset_id st.fullStore
        (bin sorted MAX_DURATION_FULL (fun p => p.timestamp)) with
    | (σf, some e) => ({ st with fullStore := σf }, some e)
    | (σf, none) =>
      match putAggTiers dataset_id sorted st.aggStore aggFidelities with
      | (σa, r) => ({ st with fullStore := σf, aggStore := σa }, r)

/-- `Index._read_datapoints` on decoded file contents: convert each raw
record to a public `Datapoint`. -/
def read_datapoints (contents : List DatapointRec) : List Datapoint :=
  contents.map fun r => ⟨r.timestamp, r.value⟩

/-- `Index._read_agg_datapoints` on decoded file contents: the public mean
is `sum_values / count`. -/
def read_agg_datapoints (contents : List AggRec) : List AggregatedDatapoint :=
  contents.map fun a =>
    ⟨(a.timestamp : ℚ), a.min_value, a.sum_values / (a.count : ℚ), a.max_value⟩

/-- The result of `Index.get`: a list of raw datapoints at the full tier, a
list of aggregated datapoints otherwise. -/
inductive GetResult
  | fullData (points : List Datapoint)
  | aggData (points : List AggregatedDatapoint)
deriving DecidableEq

namespace Index

/-- `Index.get`. -/
def get (st : IndexState) (dataset_id : String) (start_dt end_dt : ℚ)
    (fidelity : Option Fidelity) : IndexState × Except Err GetResult :=
  let st := { st with num_gets := st.num_gets + 1 }
  let fid := match fidelity with
    | none => recommended_fidelity start_dt end_dt
    | some f => f
  match subpaths start_dt end_dt dataset_id fid with
  | .error e => (st, .error e)
  | .ok paths =>
    if fid = .FIDELITY_FULL then
      (st, .ok (.fullData (paths.flatMap fun p => read_datapoints (st.fullStore p))))
    else
      (st, .ok (.aggData (paths.flatMap fun p => read_agg_datapoints (st.aggStore p))))

end Index

/-- The data component of `Index.get` (the return value or the exception). -/
def getData (st : IndexState) (dataset_id : String) (start_dt end_dt : ℚ)
    (fidelity : Option Fidelity) : Except Err GetResult :=
  (Index.get st dataset_id start_dt end_dt fidelity).2

/-- `Index.datasets`.  `fullRoot` is the directory listing of
`BASE/data/full/` in iteration order (`none` when that directory does not
exist); the source takes the first `max_count` entries with `islice` and
then filters by substring containment. -/
def datasets (fullRoot : Option (List String)) (query : String)
    (max_count : ℕ) : List String :=
  match fullRoot with
  | none => []
  | some entries =>
    (entries.take max_count).filter fun name =>
      decide (query.data <:+: name.data)

/-- The intermediate directory numbers of a shard path, per tier. -/
def dirsOf (f : Fidelity) (t : ℚ) : List ℤ :=
  match f with
  | .FIDELITY_FULL => [⌊t / 10000000⌋, ⌊t / 100000⌋, ⌊t / 1000⌋]
  | .FIDELITY_1 => [⌊t / 10000000⌋, ⌊t / 100000⌋]
  | .FIDELITY_10 => [⌊t / 10000000⌋, ⌊t / 100000⌋]
  | .FIDELITY_100 => [⌊t / 10000000⌋]
  | .FIDELITY_1000 => [⌊t / 10000000⌋]
  | .FIDELITY_10000 => []
  | .FIDELITY_100000 => []

/-- The shard path produced by `subpath` for a nonnegative timestamp. -/
def shardPathOf (t : ℚ) (dataset_id : String) (f : Fidelity) : ShardPath :=
  ⟨f, dataset_id, dirsOf f t, ⌊t / max_duration f⌋⟩

/-- The record produced when `_combine_aggregations` merges two aggregates
with the same timestamp. -/
def mergeRec (x y : AggRec) : AggRec :=
  ⟨x.timestamp, min x.min_value y.min_value, max x.max_value y.max_value,
    x.sum_values + y.sum_values, x.count + y.count⟩

/-- The file span of each tier as a natural number. -/
def spanNat : Fidelity → ℕ
  | .FIDELITY_FULL => 500
  | .FIDELITY_1 => 5000
  | .FIDELITY_10 => 50000
  | .FIDELITY_100 => 500000
  | .FIDELITY_1000 => 5000000
  | .FIDELITY_10000 => 50000000
  | .FIDELITY_100000 => 500000000

/-- The payload of a successful full-fidelity `get`, `none` otherwise. -/
def fullResult : Except Err GetResult → Option (List Datapoint)
  | .ok (.fullData l) => some l
  | _ => none

/-! ### Basic facts about `pyInt` and floors -/

theorem max_duration_pos (f : Fidelity) : 0 < max_duration f := by
  cases f <;> decide

theorem rat_floor_eq (q : ℚ) : q.floor = ⌊q⌋ := by
  rw [Rat.floor_def', Rat.floor_def]

theorem pyInt_eq_floor {q : ℚ} (h : 0 ≤ q) : pyInt q = ⌊q⌋ := by
  rw [pyInt, if_pos h, rat_floor_eq]

theorem pyInt_mono : Monotone pyInt := by
  intro x y hxy
  unfold pyInt
  rcases le_or_lt 0 x with hx | hx
  · rw [if_pos hx, if_pos (hx.trans hxy), rat_floor_eq, rat_floor_eq]
    exact Int.floor_mono hxy
  · rcases le_or_lt 0 y with hy | hy
    · rw [if_neg (not_le.2 hx), if_pos hy, rat_floor_eq, rat_floor_eq]
      have hnx : (0:ℤ) ≤ ⌊-x⌋ := Int.floor_nonneg.2 (by linarith)
      have hny : (0:ℤ) ≤ ⌊y⌋ := Int.floor_nonneg.2 hy
      omega
    · rw [if_neg (not_le.2 hx), if_neg (not_le.2 hy), rat_floor_eq, rat_floor_eq]
      have := Int.floor_mono (neg_le_neg hxy)
      omega

theorem floor_floor_div (q : ℚ) (m : ℕ) (hm : 0 < m) :
    ⌊(⌊q⌋ : ℚ) / (m : ℚ)⌋ = ⌊q / (m : ℚ)⌋ := by
  have hm' : (0:ℚ) < (m:ℚ) := by exact_mod_cast hm
  set k : ℤ := ⌊(⌊q⌋ : ℚ) / (m : ℚ)⌋ with hk
  have h1 : (k : ℚ) ≤ (⌊q⌋ : ℚ) / (m : ℚ) := Int.floor_le _
  have h2 : (⌊q⌋ : ℚ) / (m : ℚ) < k + 1 := Int.lt_floor_add_one _
  have h1' : (k : ℚ) * m ≤ (⌊q⌋ : ℚ) := (le_div_iff hm').1 h1
  have h2' : (⌊q⌋ : ℚ) < (k + 1) * m := (div_lt_iff hm').1 h2
  have h1i : k * m ≤ ⌊q⌋ := by exact_mod_cast h1'
  have h2i : ⌊q⌋ < (k + 1) * m := by exact_mod_cast h2'
  symm
  rw [Int.floor_eq_iff]
  constructor
  · rw [le_div_iff hm']
    calc ((k : ℚ) * m) ≤ (⌊q⌋ : ℚ) := h1'
    _ ≤ q := Int.floor_le q
  · rw [div_lt_iff hm']
    have hq1 : q < (⌊q⌋ : ℚ) + 1 := Int.lt_floor_add_one q
    have h2q : ((⌊q⌋ : ℚ) + 1) ≤ ((k : ℚ) + 1) * m := by
      have : ⌊q⌋ + 1 ≤ (k + 1) * m := by omega
      exact_mod_cast this
    push_cast
    linarith

theorem floor_div_congr {t1 t2 : ℚ} {n : ℚ} (m : ℕ) (hm : 0 < m)
    (h : ⌊t1 / n⌋ = ⌊t2 / n⌋) : ⌊t1 / (n * m)⌋ = ⌊t2 / (n * m)⌋ := by
  rw [← div_div, ← div_div, ← floor_floor_div (t1 / n) m hm,
    ← floor_floor_div (t2 / n) m hm, h]

/-! ### The shape of `subpath` on nonnegative timestamps -/

theorem subpath_eq_some {t : ℚ} (ht : 0 ≤ t) (D : String) (f : Fidelity) :
    subpath t D f = some (shardPathOf t D f) := by
  have hdiv : ∀ c : ℚ, 0 < c → pyInt (t / c) = ⌊t / c⌋ := fun c hc =>
    pyInt_eq_floor (div_nonneg ht hc.le)
  cases f <;>
    simp only [subpath, if_neg (not_lt.2 ht), shardPathOf, dirsOf, max_duration,
      hdiv _ (by norm_num : (0:ℚ) < 10000000),
      hdiv _ (by norm_num : (0:ℚ) < 100000),
      hdiv _ (by norm_num : (0:ℚ) < 1000),
      hdiv _ (by decide : (0:ℚ) < MAX_DURATION_FULL),
      hdiv _ (by decide : (0:ℚ) < MAX_DURATION_1),
      hdiv _ (by decide : (0:ℚ) < MAX_DURATION_10),
      hdiv _ (by decide : (0:ℚ) < MAX_DURATION_100),
      hdiv _ (by decide : (0:ℚ) < MAX_DURATION_1000),
      hdiv _ (by decide : (0:ℚ) < MAX_DURATION_10000),
      hdiv _ (by decide : (0:ℚ) < MAX_DURATION_100000)]

theorem floor_congr_of_name {t1 t2 span : ℚ} (h : ⌊t1 / span⌋ = ⌊t2 / span⌋)
    (C : ℚ) (m : ℕ) (hm : 0 < m) (hC : C = span * (m : ℚ)) :
    ⌊t1 / C⌋ = ⌊t2 / C⌋ := by
  rw [hC]
  exact floor_div_congr m hm h

theorem shardPathOf_congr (f : Fidelity) (D : String) {t1 t2 : ℚ}
    (h : ⌊t1 / max_duration f⌋ = ⌊t2 / max_duration f⌋) :
    shardPathOf t1 D f = shardPathOf t2 D f := by
  cases f <;>
    simp only [max_duration] at h <;>
    simp only [shardPathOf, dirsOf, max_duration] <;>
    rw [h] <;>
    first
    | rfl
    | rw [floor_congr_of_name h 10000000 20000 (by norm_num) (by decide),
        floor_congr_of_name h 100000 200 (by norm_num) (by decide),
        floor_congr_of_name h 1000 2 (by norm_num) (by decide)]
    | rw [floor_congr_of_name h 10000000 2000 (by norm_num) (by decide),
        floor_congr_of_name h 100000 20 (by norm_num) (by decide)]
    | rw [floor_congr_of_name h 10000000 200 (by norm_num) (by decide),
        floor_congr_of_name h 100000 2 (by norm_num) (by decide)]
    | rw [floor_congr_of_name h 10000000 20 (by norm_num) (by decide)]
    | rw [floor_congr_of_name h 10000000 2 (by norm_num) (by decide)]

/-- C4: for every fidelity tier `T`, dataset id, and nonnegative timestamps
`t1`, `t2`: equal `file_span(T)`-aligned intervals (`⌊t1 / file_span⌋ =
⌊t2 / file_span⌋`, the file span being the tier's `MAX_DURATION` constant)
give the same shard path, and distinct intervals give distinct shard paths;
hence every timestamp in a bin `[b, b + file_span(T))` maps to exactly one
file. -/
theorem shard_containment (f : Fidelity) (D : String) (t1 t2 : ℚ)
    (h1 : 0 ≤ t1) (h2 : 0 ≤ t2) :
    (⌊t1 / max_duration f⌋ = ⌊t2 / max_duration f⌋ →
      subpath t1 D f = subpath t2 D f) ∧
    (⌊t1 / max_duration f⌋ ≠ ⌊t2 / max_duration f⌋ →
      subpath t1 D f ≠ subpath t2 D f) := by
  rw [subpath_eq_some h1 D f, subpath_eq_some h2 D f]
  constructor
  · intro h
    exact congrArg some (shardPathOf_congr f D h)
  · intro hne heq
    apply hne
    have hp := Option.some.inj heq
    have hn : (shardPathOf t1 D f).name = (shardPathOf t2 D f).name := by rw [hp]
    simpa only [shardPathOf] using hn

/-- Witness for C4 at the full tier: timestamps 0 and 499 share a shard,
timestamps 0 and 500 do not. -/
theorem shard_containment_witness :
    subpath 0 "ds" .FIDELITY_FULL = subpath 499 "ds" .FIDELITY_FULL ∧
    subpath 0 "ds" .FIDELITY_FULL ≠ subpath 500 "ds" .FIDELITY_FULL :=
  ⟨(shard_containment .FIDELITY_FULL "ds" 0 499 (by decide) (by decide)).1
      (by decide),
    (shard_containment .FIDELITY_FULL "ds" 0 500 (by decide) (by decide)).2
      (by decide)⟩

/-! ### Claim C5: fidelity selection -/

/-- C5: a `get` whose fidelity argument is omitted uses
`recommended_fidelity`, and with `d = end - start` the recommendation is
FULL for `d < 500`, F1 for `500 ≤ d < 5000`, F10 for `5000 ≤ d < 50000`,
F100 for `50000 ≤ d < 500000`, F1000 for `500000 ≤ d < 5000000`, F10000
for `5000000 ≤ d < 50000000`, and F100000 for `50000000 ≤ d`: the smallest
tier whose `MAX_DURATION` bound exceeds the duration. -/
theorem fidelity_selection (st : IndexState) (D : String) (s e : ℚ) :
    Index.get st D s e none = Index.get st D s e (some (recommended_fidelity s e)) ∧
    (e - s < 500 → recommended_fidelity s e = .FIDELITY_FULL) ∧
    (500 ≤ e - s → e - s < 5000 → recommended_fidelity s e = .FIDELITY_1) ∧
    (5000 ≤ e - s → e - s < 50000 → recommended_fidelity s e = .FIDELITY_10) ∧
    (50000 ≤ e - s → e - s < 500000 → recommended_fidelity s e = .FIDELITY_100) ∧
    (500000 ≤ e - s → e - s < 5000000 → recommended_fidelity s e = .FIDELITY_1000) ∧
    (5000000 ≤ e - s → e - s < 50000000 → recommended_fidelity s e = .FIDELITY_10000) ∧
    (50000000 ≤ e - s → recommended_fidelity s e = .FIDELITY_100000) := by
  have cF : MAX_DURATION_FULL = 500 := by decide
  have c1 : MAX_DURATION_1 = 5000 := by decide
  have c10 : MAX_DURATION_10 = 50000 := by decide
  have c100 : MAX_DURATION_100 = 500000 := by decide
  have c1000 : MAX_DURATION_1000 = 5000000 := by decide
  have c10000 : MAX_DURATION_10000 = 50000000 := by decide
  refine ⟨rfl, ?_, ?_, ?_, ?_, ?_, ?_, ?_⟩ <;>
    intros <;>
    simp only [recommended_fidelity, cF, c1, c10, c100, c1000, c10000] <;>
    (repeat rw [if_neg (by linarith)]) <;>
    first
    | rfl
    | rw [if_pos (by linarith)]

/-- Witness for C5: a 600-second window selects the 1-second tier, a
100-second window the full tier, a 60000000-second window the coarsest. -/
theorem fidelity_selection_witness :
    recommended_fidelity 0 600 = .FIDELITY_1 ∧
    recommended_fidelity 0 100 = .FIDELITY_FULL ∧
    recommended_fidelity 0 60000000 = .FIDELITY_100000 :=
  ⟨(fidelity_selection initIndex "d" 0 600).2.2.1 (by decide) (by decide),
    (fidelity_selection initIndex "d" 0 100).2.1 (by decide),
    (fidelity_selection initIndex "d" 0 60000000).2.2.2.2.2.2.2 (by decide)⟩

/-! ### Claim C6: window guard -/

theorem getData_eq (st : IndexState) (D : String) (s e : ℚ) (f : Fidelity) :
    getData st D s e (some f) =
      match subpaths s e D f with
      | .error er => .error er
      | .ok paths =>
        if f = .FIDELITY_FULL then
          .ok (.fullData (paths.flatMap fun p => read_datapoints (st.fullStore p)))
        else
          .ok (.aggData (paths.flatMap fun p => read_agg_datapoints (st.aggStore p))) := by
  cases h : subpaths s e D f <;>
    simp only [getData, Index.get, h] <;>
    split <;>
    rfl

theorem pathsFor_error {D : String} {f : Fidelity} :
    ∀ (l : List ℚ) (e : Err), pathsFor D f l = .error e →
      e = Err.negativeTimestamp := by
  intro l
  induction l with
  | nil => intro e h; exact absurd h (by simp [pathsFor])
  | cons x xs ih =>
    intro e h
    rw [pathsFor] at h
    cases hx : subpath x D f with
    | none => rw [hx] at h; exact (Except.error.inj h).symm
    | some p =>
      rw [hx] at h
      cases hxs : pathsFor D f xs with
      | error e' =>
        rw [hxs] at h
        have he : e = e' := (Except.error.inj h).symm
        rw [he]
        exact ih e' hxs
      | ok ps => rw [hxs] at h; exact absurd h (by simp)

/-- C6: a `get` at an explicit tier fails with the window-too-large error
exactly as guarded by `_subpaths`: it fails that way whenever
`(end - start) / step > 500` for the tier's step (before any shard path is
produced or file read), and never raises that error when the quotient is
at most 500. -/
theorem window_guard (st : IndexState) (D : String) (s e : ℚ) (f : Fidelity) :
    ((e - s) / max_duration f > 500 →
      getData st D s e (some f) = .error .windowTooLarge) ∧
    ((e - s) / max_duration f ≤ 500 →
      getData st D s e (some f) ≠ .error .windowTooLarge) := by
  constructor
  · intro h
    rw [getData_eq]
    simp only [subpaths, if_pos h]
  · intro h hbad
    rw [getData_eq] at hbad
    simp only [subpaths, if_neg (not_lt.2 h)] at hbad
    cases hm : pathsFor D f
        (stepTimes e (max_duration f) (max_duration_pos f) s) with
    | error e' =>
      rw [hm] at hbad
      have : e' = Err.negativeTimestamp := pathsFor_error _ e' hm
      rw [this] at hbad
      exact Err.noConfusion (Except.error.inj hbad)
    | ok ps =>
      rw [hm] at hbad
      by_cases hf : f = .FIDELITY_FULL <;> simp [hf] at hbad

/-- Witness for C6: on a fresh index and the full tier, a 300000-second
window errors with the window guard and a 1000-second window does not. -/
theorem window_guard_witness :
    getData initIndex "d" 0 300000 (some .FIDELITY_FULL) =
      .error .windowTooLarge ∧
    getData initIndex "d" 0 1000 (some .FIDELITY_FULL) ≠
      .error .windowTooLarge :=
  ⟨(window_guard initIndex "d" 0 300000 .FIDELITY_FULL).1 (by decide),
    (window_guard initIndex "d" 0 1000 .FIDELITY_FULL).2 (by decide)⟩

/-! ### Claim C7: InvalidId handling (corrected: `num_puts` is incremented) -/

/-- Counterexample to C7 as stated: `put` with the illegal id `"a/b"` does
raise `InvalidId`, but `num_puts` is incremented before validation runs, so
the index state is not unchanged. -/
theorem invalid_id_counterexample :
    (put initIndex "a/b" [⟨0, 1⟩]).2 = some .invalidId ∧
    (put initIndex "a/b" [⟨0, 1⟩]).1.num_puts ≠ initIndex.num_puts := by
  constructor
  · decide
  · decide

/-- C7 (amended): for every dataset id rejected by the legality check
(`[A-Za-z0-9._-]+` fullmatch failing or a `".."` substring) and every sample
list, `put` raises `InvalidId` at entry with no filesystem side effects and
`num_gets` unchanged; the only state change is `num_puts` increasing by
one (the source increments the counter before validating). -/
theorem invalid_id_no_store_effects (st : IndexState) (D : String)
    (points : List Datapoint) (h : legalDatasetId D = false) :
    put st D points = ({ st with num_puts := st.num_puts + 1 }, some .invalidId) := by
  simp [put, h]

/-- Witness for C7: a concrete invalid id. -/
theorem invalid_id_witness :
    put initIndex "x y" [] = ({ initIndex with num_puts := 1 }, some .invalidId) :=
  invalid_id_no_store_effects initIndex "x y" [] (by decide)

/-! ### Claim C9: empty-batch put -/

/-- C9: for every valid dataset id, `put(D, [])` writes nothing: the stores
are untouched and the only state change is `num_puts` increasing by one. -/
theorem empty_put_noop (st : IndexState) (D : String)
    (h : legalDatasetId D = true) :
    put st D [] = ({ st with num_puts := st.num_puts + 1 }, none) := by
  simp [put, h, rawPoints, sortPts, bin, aggregate, putFullBins, putAggTiers,
    putAggTier, putAggBins, aggFidelities, List.mergeSort_nil, List.map_nil]

/-- Witness for C9. -/
theorem empty_put_noop_witness :
    put initIndex "ds1" [] = ({ initIndex with num_puts := 1 }, none) :=
  empty_put_noop initIndex "ds1" (by decide)

/-! ### Claim C8: dataset listing (corrected: truncation happens before the
substring filter) -/

/-- Counterexample to C8 as stated: with children `["apple", "banana"]`,
query `"banana"` and `max = 1`, the claim's filter-then-truncate semantics
would return `["banana"]`, but the source truncates with `islice` before
filtering and returns `[]`. -/
theorem datasets_counterexample :
    datasets (some ["apple", "banana"]) "banana" 1 ≠
      (["apple", "banana"].filter fun name =>
        decide ("banana".data <:+: name.data)).take 1 := by
  decide

/-- C8 (amended): `datasets` examines only the first `max` directory
entries of the `full` root and returns those containing the query as a
substring; hence it returns at most `max` names, every returned name is a
matching child, when `max` is at least the total number of children it
returns exactly the matching children, and a missing `full` root gives
`[]`. -/
theorem datasets_semantics (entries : List String) (query : String)
    (max_count : ℕ) :
    (∀ name ∈ datasets (some entries) query max_count,
      name ∈ entries ∧ query.data <:+: name.data) ∧
    (datasets (some entries) query max_count).length ≤ max_count ∧
    (entries.length ≤ max_count →
      datasets (some entries) query max_count =
        entries.filter fun name => decide (query.data <:+: name.data)) ∧
    datasets none query max_count = [] := by
  refine ⟨?_, ?_, ?_, rfl⟩
  · intro name hn
    simp only [datasets, List.mem_filter, decide_eq_true_eq] at hn
    exact ⟨List.mem_of_mem_take hn.1, hn.2⟩
  · calc (datasets (some entries) query max_count).length
        ≤ (entries.take max_count).length := List.length_filter_le _ _
    _ ≤ max_count := (List.length_take max_count entries).le.trans
        (min_le_left _ _)
  · intro hlen
    simp only [datasets, List.take_of_length_le hlen]

/-- Witness for C8: with both children examined, exactly the matching one
is returned. -/
theorem datasets_semantics_witness :
    datasets (some ["apple", "banana"]) "an" 2 =
      (["apple", "banana"].filter fun name => decide ("an".data <:+: name.data)) :=
  (datasets_semantics ["apple", "banana"] "an" 2).2.2.1 (by decide)

/-! ### Structural lemmas about binning -/

theorem binGo_flat {α : Type} (d : ℚ) (tsf : α → ℚ) :
    ∀ (l : List α) (out : List (ℤ × List α)) (b : ℤ) (w : List α),
      (binGo d tsf out b w l).flatMap (·.2) = out.flatMap (·.2) ++ w ++ l := by
  intro l
  induction l with
  | nil => intro out b w; simp [binGo]
  | cons p rest ih =>
    intro out b w
    rw [binGo]
    by_cases h : bin_id d (tsf p) ≠ b
    · rw [if_pos h, ih]
      simp
    · rw [if_neg h, ih]
      simp

theorem bin_flat {α : Type} (pts : List α) (d : ℚ) (tsf : α → ℚ) :
    (bin pts d tsf).flatMap (·.2) = pts := by
  cases pts with
  | nil => simp [bin]
  | cons p rest => rw [bin, binGo_flat]; simp

theorem binGo_windows {α : Type} (d : ℚ) (tsf : α → ℚ) :
    ∀ (l : List α) (out : List (ℤ × List α)) (b : ℤ) (w : List α),
      (∀ pr ∈ out, ∀ q ∈ pr.2, bin_id d (tsf q) = pr.1) →
      (∀ q ∈ w, bin_id d (tsf q) = b) →
      ∀ pr ∈ binGo d tsf out b w l, ∀ q ∈ pr.2, bin_id d (tsf q) = pr.1 := by
  intro l
  induction l with
  | nil =>
    intro out b w hout hw pr hpr
    rw [binGo] at hpr
    rcases List.mem_append.1 hpr with h | h
    · exact hout pr h
    · rcases List.mem_singleton.1 h with rfl
      exact hw
  | cons p rest ih =>
    intro out b w hout hw pr hpr
    rw [binGo] at hpr
    by_cases h : bin_id d (tsf p) ≠ b
    · rw [if_pos h] at hpr
      refine ih _ _ _ ?_ ?_ pr hpr
      · intro pr' hpr' q hq
        rcases List.mem_append.1 hpr' with h' | h'
        · exact hout pr' h' q hq
        · rcases List.mem_singleton.1 h' with rfl
          exact hw q hq
      · intro q hq
        rcases List.mem_singleton.1 hq with rfl
        rfl
    · rw [if_neg h] at hpr
      push_neg at h
      refine ih _ _ _ hout ?_ pr hpr
      intro q hq
      rcases List.mem_append.1 hq with h' | h'
      · exact hw q h'
      · rcases List.mem_singleton.1 h' with rfl
        exact h

theorem bin_windows {α : Type} (pts : List α) (d : ℚ) (tsf : α → ℚ) :
    ∀ pr ∈ bin pts d tsf, ∀ q ∈ pr.2, bin_id d (tsf q) = pr.1 := by
  cases pts with
  | nil => simp [bin]
  | cons p rest =>
    rw [bin]
    refine binGo_windows d tsf rest [] _ [p] (by simp) ?_
    intro q hq
    rcases List.mem_singleton.1 hq with rfl
    rfl

theorem binGo_windows_ne {α : Type} (d : ℚ) (tsf : α → ℚ) :
    ∀ (l : List α) (out : List (ℤ × List α)) (b : ℤ) (w : List α),
      (∀ pr ∈ out, pr.2 ≠ []) → w ≠ [] →
      ∀ pr ∈ binGo d tsf out b w l, pr.2 ≠ [] := by
  intro l
  induction l with
  | nil =>
    intro out b w hout hw pr hpr
    rw [binGo] at hpr
    rcases List.mem_append.1 hpr with h | h
    · exact hout pr h
    · rcases List.mem_singleton.1 h with rfl
      exact hw
  | cons p rest ih =>
    intro out b w hout hw pr hpr
    rw [binGo] at hpr
    by_cases h : bin_id d (tsf p) ≠ b
    · rw [if_pos h] at hpr
      refine ih _ _ _ ?_ (by simp) pr hpr
      intro pr' hpr'
      rcases List.mem_append.1 hpr' with h' | h'
      · exact hout pr' h'
      · rcases List.mem_singleton.1 h' with rfl
        exact hw
    · rw [if_neg h] at hpr
      exact ih _ _ _ hout (by simp) pr hpr

theorem binGo_keys {α : Type} (d : ℚ) (tsf : α → ℚ) :
    ∀ (l : List α) (out : List (ℤ × List α)) (b : ℤ) (w : List α),
      (out.map (·.1) ++ [b]).Pairwise (· < ·) →
      List.Pairwise (fun p q : α => bin_id d (tsf p) ≤ bin_id d (tsf q)) l →
      (∀ q ∈ l, b ≤ bin_id d (tsf q)) →
      ((binGo d tsf out b w l).map (·.1)).Pairwise (· < ·) := by
  intro l
  induction l with
  | nil =>
    intro out b w hkeys _ _
    rw [binGo]
    simpa using hkeys
  | cons p rest ih =>
    intro out b w hkeys hpw hge
    rw [binGo]
    rcases List.pairwise_cons.1 hpw with ⟨hphead, hptail⟩
    by_cases h : bin_id d (tsf p) ≠ b
    · rw [if_pos h]
      have hb : b < bin_id d (tsf p) :=
        lt_of_le_of_ne (hge p (List.mem_cons_self p rest)) (Ne.symm h)
      refine ih _ _ _ ?_ hptail ?_
      · rw [List.map_append]
        rw [List.append_assoc]
        rcases List.pairwise_append.1 hkeys with ⟨h1, _, h3⟩
        refine List.pairwise_append.2 ⟨h1, ?_, ?_⟩
        · simp only [List.map_cons, List.map_nil]
          refine List.pairwise_append.2 ⟨by simp, by simp, ?_⟩
          intro x hx y hy
          rcases List.mem_singleton.1 hx with rfl
          rcases List.mem_singleton.1 hy with rfl
          exact hb
        · intro x hx y hy
          have hxb : x < b := h3 x hx b (List.mem_singleton.2 rfl)
          rcases List.mem_append.1 hy with h' | h'
          · rcases List.mem_singleton.1 (by simpa using h') with rfl
            exact hxb
          · rcases List.mem_singleton.1 h' with rfl
            exact hxb.trans hb
      · intro q hq
        exact hphead q hq
    · rw [if_neg h]
      push_neg at h
      refine ih _ _ _ hkeys hptail ?_
      intro q hq
      rw [← h]
      exact hphead q hq

theorem bin_keys {α : Type} (pts : List α) (d : ℚ) (tsf : α → ℚ)
    (hsort : List.Pairwise (fun p q : α => bin_id d (tsf p) ≤ bin_id d (tsf q)) pts) :
    ((bin pts d tsf).map (·.1)).Pairwise (· < ·) := by
  cases pts with
  | nil => simp [bin]
  | cons p rest =>
    rw [bin]
    rcases List.pairwise_cons.1 hsort with ⟨hhead, htail⟩
    exact binGo_keys d tsf rest [] _ [p] (by simp) htail hhead

theorem flatMap_filter_of_groups {α : Type} (key : α → ℤ) :
    ∀ (gs : List (ℤ × List α)),
      (∀ pr ∈ gs, ∀ q ∈ pr.2, key q = pr.1) →
      ∀ g : ℤ, (gs.flatMap (·.2)).filter (fun q => decide (key q = g)) =
        (gs.filter fun pr => decide (pr.1 = g)).flatMap (·.2) := by
  intro gs
  induction gs with
  | nil => intro _ g; simp
  | cons pr rest ih =>
    intro hw g
    rw [List.flatMap_cons, List.filter_append, List.filter_cons]
    by_cases h : pr.1 = g
    · rw [if_pos (by simpa using h), List.flatMap_cons]
      congr 1
      · refine List.filter_eq_self.2 ?_
        intro q hq
        simpa using (hw pr (by simp) q hq).trans h
      · exact ih (fun pr' h' q hq => hw pr' (by simp [h']) q hq) g
    · rw [if_neg (by simpa using h)]
      have hnil : pr.2.filter (fun q => decide (key q = g)) = [] := by
        refine List.filter_eq_nil_iff.2 ?_
        intro q hq
        simpa using fun hk => h ((hw pr (by simp) q hq).symm.trans hk)
      rw [hnil, List.nil_append]
      exact ih (fun pr' h' q hq => hw pr' (by simp [h']) q hq) g

theorem filter_singleton_of_strict_keys {α : Type} :
    ∀ (gs : List (ℤ × List α)) (pr : ℤ × List α),
      (gs.map (·.1)).Pairwise (· < ·) → pr ∈ gs →
      (gs.filter fun x => decide (x.1 = pr.1)) = [pr] := by
  intro gs
  induction gs with
  | nil => intro pr _ hm; exact absurd hm (by simp)
  | cons x rest ih =>
    intro pr hkeys hm
    rw [List.map_cons] at hkeys
    rcases List.pairwise_cons.1 hkeys with ⟨hhead, htail⟩
    rw [List.filter_cons]
    by_cases h : x.1 = pr.1
    · have hpx : pr = x := by
        rcases List.mem_cons.1 hm with h' | h'
        · exact h'
        · exact absurd h (ne_of_lt (hhead pr.1 (List.mem_map_of_mem (·.1) h')))
      rw [if_pos (by simpa using h), hpx]
      have : rest.filter (fun y => decide (y.1 = x.1)) = [] := by
        refine List.filter_eq_nil_iff.2 ?_
        intro q hq
        have := hhead q.1 (List.mem_map_of_mem (·.1) hq)
        simp only [decide_eq_true_eq]
        omega
      rw [this]
    · rw [if_neg (by simpa using h)]
      rcases List.mem_cons.1 hm with h' | h'
      · exact absurd (congrArg (·.1) h').symm h
      · exact ih pr htail h'

theorem bin_window_filter {α : Type} (pts : List α) (d : ℚ) (tsf : α → ℚ)
    (hsort : List.Pairwise (fun p q : α => bin_id d (tsf p) ≤ bin_id d (tsf q)) pts) :
    ∀ pr ∈ bin pts d tsf,
      pts.filter (fun q => decide (bin_id d (tsf q) = pr.1)) = pr.2 := by
  intro pr hpr
  conv_lhs => rw [← bin_flat pts d tsf]
  rw [flatMap_filter_of_groups _ _ (bin_windows pts d tsf) pr.1,
    filter_singleton_of_strict_keys _ pr (bin_keys pts d tsf hsort) hpr]
  simp

theorem bin_windows_ne_all {α : Type} (pts : List α) (d : ℚ) (tsf : α → ℚ) :
    ∀ pr ∈ bin pts d tsf, pr.2 ≠ [] := by
  cases pts with
  | nil => simp [bin]
  | cons p rest =>
    rw [bin]
    exact binGo_windows_ne d tsf rest [] _ [p] (by simp) (by simp)

theorem bin_keys_mem {α : Type} (pts : List α) (d : ℚ) (tsf : α → ℚ) (g : ℤ) :
    (∃ pr ∈ bin pts d tsf, pr.1 = g) ↔ ∃ q ∈ pts, bin_id d (tsf q) = g := by
  constructor
  · rintro ⟨pr, hpr, rfl⟩
    have hne := bin_windows_ne_all pts d tsf pr hpr
    rcases List.exists_mem_of_ne_nil _ hne with ⟨q, hq⟩
    refine ⟨q, ?_, bin_windows pts d tsf pr hpr q hq⟩
    rw [← bin_flat pts d tsf]
    exact List.mem_flatMap.2 ⟨pr, hpr, hq⟩
  · rintro ⟨q, hq, rfl⟩
    rw [← bin_flat pts d tsf] at hq
    rcases List.mem_flatMap.1 hq with ⟨pr, hpr, hqpr⟩
    exact ⟨pr, hpr, (bin_windows pts d tsf pr hpr q hqpr).symm⟩

theorem bin_id_mono {d : ℚ} (hd : 0 < d) {t1 t2 : ℚ} (h : t1 ≤ t2) :
    bin_id d t1 ≤ bin_id d t2 := by
  unfold bin_id
  apply pyInt_mono
  have h1 : pyInt (t1 / d) ≤ pyInt (t2 / d) :=
    pyInt_mono ((div_le_div_right hd).2 h)
  have : (pyInt (t1 / d) : ℚ) ≤ (pyInt (t2 / d) : ℚ) := by exact_mod_cast h1
  exact mul_le_mul_of_nonneg_right this hd.le

/-! ### Facts about `pyMin`, `pyMax`, `pySum` -/

theorem foldl_min_le_init : ∀ (l : List ℚ) (a : ℚ), l.foldl min a ≤ a := by
  intro l
  induction l with
  | nil => intro a; simp
  | cons x xs ih =>
    intro a
    rw [List.foldl_cons]
    exact (ih (min a x)).trans (min_le_left a x)

theorem foldl_min_le_mem : ∀ (l : List ℚ) (a x : ℚ), x ∈ l → l.foldl min a ≤ x := by
  intro l
  induction l with
  | nil => intro a x hx; exact absurd hx (by simp)
  | cons y ys ih =>
    intro a x hx
    rw [List.foldl_cons]
    rcases List.mem_cons.1 hx with rfl | hx'
    · exact (foldl_min_le_init ys (min a x)).trans (min_le_right a x)
    · exact ih (min a y) x hx'

theorem foldl_min_mem : ∀ (l : List ℚ) (a : ℚ), l.foldl min a = a ∨ l.foldl min a ∈ l := by
  intro l
  induction l with
  | nil => intro a; simp
  | cons y ys ih =>
    intro a
    rw [List.foldl_cons]
    rcases ih (min a y) with h | h
    · rcases min_choice a y with h' | h'
      · exact Or.inl (h.trans h')
      · exact Or.inr (by rw [h, h']; exact List.mem_cons_self y ys)
    · exact Or.inr (List.mem_cons_of_mem y h)

theorem pyMin_mem {l : List ℚ} (h : l ≠ []) : pyMin l ∈ l := by
  cases l with
  | nil => exact absurd rfl h
  | cons x xs =>
    rw [pyMin]
    rcases foldl_min_mem xs x with h' | h'
    · rw [h']; exact List.mem_cons_self x xs
    · exact List.mem_cons_of_mem x h'

theorem pyMin_le {l : List ℚ} (x : ℚ) (hx : x ∈ l) : pyMin l ≤ x := by
  cases l with
  | nil => exact absurd hx (by simp)
  | cons y ys =>
    rw [pyMin]
    rcases List.mem_cons.1 hx with rfl | hx'
    · exact foldl_min_le_init ys x
    · exact foldl_min_le_mem ys y x hx'

theorem pyMin_perm {l₁ l₂ : List ℚ} (h : l₁.Perm l₂) : pyMin l₁ = pyMin l₂ := by
  rcases eq_or_ne l₁ [] with rfl | h₁
  · rw [h.nil_eq.symm]
  · have h₂ : l₂ ≠ [] := fun hn => h₁ (List.Perm.eq_nil (hn ▸ h))
    exact le_antisymm (pyMin_le _ (h.mem_iff.2 (pyMin_mem h₂)))
      (pyMin_le _ (h.mem_iff.1 (pyMin_mem h₁)))

theorem pyMin_append {l₁ l₂ : List ℚ} (h₁ : l₁ ≠ []) (h₂ : l₂ ≠ []) :
    pyMin (l₁ ++ l₂) = min (pyMin l₁) (pyMin l₂) := by
  have hne : l₁ ++ l₂ ≠ [] := fun hn => h₁ (List.append_eq_nil.1 hn).1
  refine le_antisymm (le_min ?_ ?_) ?_
  · exact pyMin_le _ (List.mem_append.2 (Or.inl (pyMin_mem h₁)))
  · exact pyMin_le _ (List.mem_append.2 (Or.inr (pyMin_mem h₂)))
  · rcases List.mem_append.1 (pyMin_mem hne) with h | h
    · exact (min_le_left _ _).trans (pyMin_le _ h)
    · exact (min_le_right _ _).trans (pyMin_le _ h)

theorem foldl_max_init_le : ∀ (l : List ℚ) (a : ℚ), a ≤ l.foldl max a := by
  intro l
  induction l with
  | nil => intro a; simp
  | cons x xs ih =>
    intro a
    rw [List.foldl_cons]
    exact (le_max_left a x).trans (ih (max a x))

theorem foldl_max_mem_le : ∀ (l : List ℚ) (a x : ℚ), x ∈ l → x ≤ l.foldl max a := by
  intro l
  induction l with
  | nil => intro a x hx; exact absurd hx (by simp)
  | cons y ys ih =>
    intro a x hx
    rw [List.foldl_cons]
    rcases List.mem_cons.1 hx with rfl | hx'
    · exact (le_max_right a x).trans (foldl_max_init_le ys (max a x))
    · exact ih (max a y) x hx'

theorem foldl_max_mem : ∀ (l : List ℚ) (a : ℚ), l.foldl max a = a ∨ l.foldl max a ∈ l := by
  intro l
  induction l with
  | nil => intro a; simp
  | cons y ys ih =>
    intro a
    rw [List.foldl_cons]
    rcases ih (max a y) with h | h
    · rcases max_choice a y with h' | h'
      · exact Or.inl (h.trans h')
      · exact Or.inr (by rw [h, h']; exact List.mem_cons_self y ys)
    · exact Or.inr (List.mem_cons_of_mem y h)

theorem pyMax_mem {l : List ℚ} (h : l ≠ []) : pyMax l ∈ l := by
  cases l with
  | nil => exact absurd rfl h
  | cons x xs =>
    rw [pyMax]
    rcases foldl_max_mem xs x with h' | h'
    · rw [h']; exact List.mem_cons_self x xs
    · exact List.mem_cons_of_mem x h'

theorem le_pyMax {l : List ℚ} (x : ℚ) (hx : x ∈ l) : x ≤ pyMax l := by
  cases l with
  | nil => exact absurd hx (by simp)
  | cons y ys =>
    rw [pyMax]
    rcases List.mem_cons.1 hx with rfl | hx'
    · exact foldl_max_init_le ys x
    · exact foldl_max_mem_le ys y x hx'

theorem pyMax_perm {l₁ l₂ : List ℚ} (h : l₁.Perm l₂) : pyMax l₁ = pyMax l₂ := by
  rcases eq_or_ne l₁ [] with rfl | h₁
  · rw [h.nil_eq.symm]
  · have h₂ : l₂ ≠ [] := fun hn => h₁ (List.Perm.eq_nil (hn ▸ h))
    exact le_antisymm (le_pyMax _ (h.mem_iff.1 (pyMax_mem h₁)))
      (le_pyMax _ (h.mem_iff.2 (pyMax_mem h₂)))

theorem pyMax_append {l₁ l₂ : List ℚ} (h₁ : l₁ ≠ []) (h₂ : l₂ ≠ []) :
    pyMax (l₁ ++ l₂) = max (pyMax l₁) (pyMax l₂) := by
  have hne : l₁ ++ l₂ ≠ [] := fun hn => h₁ (List.append_eq_nil.1 hn).1
  refine le_antisymm ?_ (max_le ?_ ?_)
  · rcases List.mem_append.1 (pyMax_mem hne) with h | h
    · exact (le_pyMax _ h).trans (le_max_left _ _)
    · exact (le_pyMax _ h).trans (le_max_right _ _)
  · exact le_pyMax _ (List.mem_append.2 (Or.inl (pyMax_mem h₁)))
  · exact le_pyMax _ (List.mem_append.2 (Or.inr (pyMax_mem h₂)))

theorem foldl_add_eq : ∀ (l : List ℚ) (a : ℚ), l.foldl (· + ·) a = a + l.sum := by
  intro l
  induction l with
  | nil => intro a; simp
  | cons x xs ih =>
    intro a
    rw [List.foldl_cons, ih, List.sum_cons]
    ring

theorem pySum_eq (l : List ℚ) : pySum l = l.sum := by
  rw [pySum, foldl_add_eq, zero_add]

/-! ### `aggregate` through `bin` -/

theorem aggGo_eq_binGo (d : ℚ) :
    ∀ (l : List DatapointRec) (out : List (ℤ × List DatapointRec)) (b : ℤ)
      (w : List DatapointRec),
      aggGo d (out.map fun pr => mkAggRec pr.1 (pr.2.map (·.value))) b
          (w.map (·.value)) l =
        (binGo d (·.timestamp) out b w l).map
          fun pr => mkAggRec pr.1 (pr.2.map (·.value)) := by
  intro l
  induction l with
  | nil =>
    intro out b w
    rw [aggGo, binGo]
    simp
  | cons p rest ih =>
    intro out b w
    rw [aggGo, binGo]
    by_cases h : bin_id d p.timestamp ≠ b
    · rw [if_pos h, if_pos h]
      have := ih (out ++ [(b, w)]) (bin_id d p.timestamp) [p]
      simpa using this
    · rw [if_neg h, if_neg h]
      have := ih out b (w ++ [p])
      simpa using this

theorem aggregate_eq_bin (pts : List DatapointRec) (d : ℚ) :
    aggregate pts d = (bin pts d (·.timestamp)).map
      fun pr => mkAggRec pr.1 (pr.2.map (·.value)) := by
  cases pts with
  | nil => simp [aggregate, bin]
  | cons p rest =>
    rw [aggregate, bin]
    have := aggGo_eq_binGo d rest [] (bin_id d p.timestamp) [p]
    simpa using this

/-! ### Claim C10: the aggregator output is strictly sorted -/

theorem aggregate_ts_sorted (pts : List DatapointRec) (d : ℚ) (hd : 0 < d)
    (hsort : List.Pairwise (fun p q : DatapointRec => p.timestamp ≤ q.timestamp) pts) :
    List.Pairwise (fun a b : AggRec => a.timestamp < b.timestamp)
      (aggregate pts d) := by
  rw [aggregate_eq_bin, List.pairwise_map]
  have hb : List.Pairwise
      (fun p q : DatapointRec => bin_id d p.timestamp ≤ bin_id d q.timestamp) pts :=
    hsort.imp fun h => bin_id_mono hd h
  have hk := bin_keys pts d (·.timestamp) hb
  rw [List.pairwise_map] at hk
  exact hk.imp fun h => by simpa [mkAggRec] using h

/-- C10: for a sample list sorted (non-strictly) by timestamp and a positive
duration, `aggregate` emits bin timestamps that are strictly increasing, so
its output has no duplicate bins and satisfies the sortedness precondition
of `combine_aggregations`. -/
theorem aggregate_strictly_sorted (pts : List DatapointRec) (d : ℚ)
    (hd : 0 < d)
    (hsort : List.Pairwise (fun p q : DatapointRec => p.timestamp ≤ q.timestamp) pts) :
    List.Pairwise (fun a b : AggRec => a.timestamp < b.timestamp)
      (aggregate pts d) :=
  aggregate_ts_sorted pts d hd hsort

/-- Witness for C10 on a concrete sorted list. -/
theorem aggregate_strictly_sorted_witness :
    List.Pairwise (fun a b : AggRec => a.timestamp < b.timestamp)
      (aggregate [⟨1, 5⟩, ⟨2, 7⟩, ⟨11, 1⟩] 10) :=
  aggregate_strictly_sorted [⟨1, 5⟩, ⟨2, 7⟩, ⟨11, 1⟩] 10 (by decide) (by decide)

/-! ### Claim C3: aggregate conservation -/

theorem flatMap_map_sum (gs : List (ℤ × List DatapointRec)) :
    ((gs.flatMap (·.2)).map (·.value)).sum =
      (gs.map fun pr => ((pr.2.map (·.value)).sum)).sum := by
  induction gs with
  | nil => simp
  | cons pr rest ih => simp [ih]

theorem flatMap_length_sum (gs : List (ℤ × List DatapointRec)) :
    (gs.flatMap (·.2)).length = (gs.map fun pr => pr.2.length).sum := by
  induction gs with
  | nil => simp
  | cons pr rest ih => simp [ih]

/-- C3: for every positive aggregation period (in particular every tier
period) and every sorted nonempty sample list, `aggregate` conserves sums
and counts: the `sum_values` fields add up to the sum of the raw values and
the `count` fields to the number of raw samples; moreover each aggregate's
`sum_values` and `count` are exactly the sum and size of its bin, so the
read-time mean `sum_values / count` equals the arithmetic mean of the raw
values in that bin. -/
theorem aggregate_conservation (pts : List DatapointRec) (d : ℚ) (hd : 0 < d)
    (hne : pts ≠ [])
    (hsort : List.Pairwise (fun p q : DatapointRec => p.timestamp ≤ q.timestamp) pts) :
    ((aggregate pts d).map (·.sum_values)).sum = (pts.map (·.value)).sum ∧
    ((aggregate pts d).map (·.count)).sum = pts.length ∧
    ∀ a ∈ aggregate pts d,
      a.sum_values =
        ((pts.filter fun q => decide (bin_id d q.timestamp = a.timestamp)).map
          (·.value)).sum ∧
      a.count =
        (pts.filter fun q => decide (bin_id d q.timestamp = a.timestamp)).length ∧
      a.sum_values / (a.count : ℚ) =
        ((pts.filter fun q => decide (bin_id d q.timestamp = a.timestamp)).map
            (·.value)).sum /
          ((pts.filter fun q =>
            decide (bin_id d q.timestamp = a.timestamp)).length : ℚ) := by
  have hb : List.Pairwise
      (fun p q : DatapointRec => bin_id d p.timestamp ≤ bin_id d q.timestamp) pts :=
    hsort.imp fun h => bin_id_mono hd h
  refine ⟨?_, ?_, ?_⟩
  · rw [aggregate_eq_bin, List.map_map]
    conv_rhs => rw [← bin_flat pts d (·.timestamp)]
    rw [flatMap_map_sum]
    refine congrArg List.sum (List.map_congr_left fun pr _ => ?_)
    simp [mkAggRec, pySum_eq, Function.comp]
  · rw [aggregate_eq_bin, List.map_map]
    conv_rhs => rw [← bin_flat pts d (·.timestamp)]
    rw [flatMap_length_sum]
    refine congrArg List.sum (List.map_congr_left fun pr _ => ?_)
    simp [mkAggRec, Function.comp]
  · intro a ha
    rw [aggregate_eq_bin] at ha
    rcases List.mem_map.1 ha with ⟨pr, hpr, rfl⟩
    have hfilt := bin_window_filter pts d (·.timestamp) hb pr hpr
    simp only [mkAggRec]
    rw [hfilt, pySum_eq, List.length_map]
    exact ⟨rfl, rfl, rfl⟩

/-- Witness for C3 on a concrete sorted nonempty list. -/
theorem aggregate_conservation_witness :
    ((aggregate [⟨1, 5⟩, ⟨2, 7⟩, ⟨11, 1⟩] 10).map (·.sum_values)).sum =
      (([⟨1, 5⟩, ⟨2, 7⟩, ⟨11, 1⟩] : List DatapointRec).map (·.value)).sum :=
  (aggregate_conservation [⟨1, 5⟩, ⟨2, 7⟩, ⟨11, 1⟩] 10 (by decide) (by decide)
    (by decide)).1

/-! ### Lemmas about `combine_aggregations` -/

theorem ca_nil_left (ys : List AggRec) : combine_aggregations [] ys = ys := by
  rw [combine_aggregations]

theorem ca_nil_right (xs : List AggRec) : combine_aggregations xs [] = xs := by
  cases xs <;> simp [combine_aggregations]

theorem ca_cons_cons (p1 p2 : AggRec) (r1 r2 : List AggRec) :
    combine_aggregations (p1 :: r1) (p2 :: r2) =
      if p1.timestamp < p2.timestamp then
        p1 :: combine_aggregations r1 (p2 :: r2)
      else if p2.timestamp < p1.timestamp then
        p2 :: combine_aggregations (p1 :: r1) r2
      else mergeRec p1 p2 :: combine_aggregations r1 r2 := by
  rw [combine_aggregations, mergeRec]

theorem ca_mem_ts :
    ∀ (xs ys : List AggRec) (a : AggRec), a ∈ combine_aggregations xs ys →
      (∃ x ∈ xs, a.timestamp = x.timestamp) ∨
      (∃ y ∈ ys, a.timestamp = y.timestamp) := by
  intro xs ys
  induction xs, ys using combine_aggregations.induct with
  | case1 ys =>
    intro a ha
    rw [ca_nil_left] at ha
    exact Or.inr ⟨a, ha, rfl⟩
  | case2 xs h =>
    intro a ha
    rw [ca_nil_right] at ha
    exact Or.inl ⟨a, ha, rfl⟩
  | case3 p1 r1 p2 r2 hlt ih =>
    intro a ha
    rw [ca_cons_cons, if_pos hlt] at ha
    rcases List.mem_cons.1 ha with rfl | ha'
    · exact Or.inl ⟨a, List.mem_cons_self _ _, rfl⟩
    · rcases ih a ha' with ⟨x, hx, hts⟩ | hy
      · exact Or.inl ⟨x, List.mem_cons_of_mem _ hx, hts⟩
      · exact Or.inr hy
  | case4 p1 r1 p2 r2 hnlt hlt ih =>
    intro a ha
    rw [ca_cons_cons, if_neg hnlt, if_pos hlt] at ha
    rcases List.mem_cons.1 ha with rfl | ha'
    · exact Or.inr ⟨a, List.mem_cons_self _ _, rfl⟩
    · rcases ih a ha' with hx | ⟨y, hy, hts⟩
      · exact Or.inl hx
      · exact Or.inr ⟨y, List.mem_cons_of_mem _ hy, hts⟩
  | case5 p1 r1 p2 r2 hnlt hnlt' ih =>
    intro a ha
    rw [ca_cons_cons, if_neg hnlt, if_neg hnlt'] at ha
    rcases List.mem_cons.1 ha with rfl | ha'
    · exact Or.inl ⟨p1, List.mem_cons_self _ _, rfl⟩
    · rcases ih a ha' with ⟨x, hx, hts⟩ | ⟨y, hy, hts⟩
      · exact Or.inl ⟨x, List.mem_cons_of_mem _ hx, hts⟩
      · exact Or.inr ⟨y, List.mem_cons_of_mem _ hy, hts⟩

theorem ca_sorted :
    ∀ (xs ys : List AggRec),
      List.Pairwise (fun a b : AggRec => a.timestamp < b.timestamp) xs →
      List.Pairwise (fun a b : AggRec => a.timestamp < b.timestamp) ys →
      List.Pairwise (fun a b : AggRec => a.timestamp < b.timestamp)
        (combine_aggregations xs ys) := by
  intro xs ys
  induction xs, ys using combine_aggregations.induct with
  | case1 ys =>
    intro _ hy
    rw [ca_nil_left]
    exact hy
  | case2 xs _ =>
    intro hx _
    rw [ca_nil_right]
    exact hx
  | case3 p1 r1 p2 r2 hlt ih =>
    intro hx hy
    rw [ca_cons_cons, if_pos hlt]
    rcases List.pairwise_cons.1 hx with ⟨hx1, hx2⟩
    refine List.pairwise_cons.2 ⟨?_, ih hx2 hy⟩
    intro a ha
    rcases ca_mem_ts _ _ a ha with ⟨x, hmx, hts⟩ | ⟨y, hmy, hts⟩
    · rw [hts]; exact hx1 x hmx
    · rw [hts]
      rcases List.mem_cons.1 hmy with rfl | hmy'
      · exact hlt
      · exact hlt.trans ((List.pairwise_cons.1 hy).1 y hmy')
  | case4 p1 r1 p2 r2 hnlt hlt ih =>
    intro hx hy
    rw [ca_cons_cons, if_neg hnlt, if_pos hlt]
    rcases List.pairwise_cons.1 hy with ⟨hy1, hy2⟩
    refine List.pairwise_cons.2 ⟨?_, ih hx hy2⟩
    intro a ha
    rcases ca_mem_ts _ _ a ha with ⟨x, hmx, hts⟩ | ⟨y, hmy, hts⟩
    · rw [hts]
      rcases List.mem_cons.1 hmx with rfl | hmx'
      · exact hlt
      · exact hlt.trans ((List.pairwise_cons.1 hx).1 x hmx')
    · rw [hts]; exact hy1 y hmy
  | case5 p1 r1 p2 r2 hnlt hnlt' ih =>
    intro hx hy
    rw [ca_cons_cons, if_neg hnlt, if_neg hnlt']
    have hts : p1.timestamp = p2.timestamp := le_antisymm (not_lt.1 hnlt') (not_lt.1 hnlt)
    rcases List.pairwise_cons.1 hx with ⟨hx1, hx2⟩
    rcases List.pairwise_cons.1 hy with ⟨hy1, hy2⟩
    refine List.pairwise_cons.2 ⟨?_, ih hx2 hy2⟩
    intro a ha
    rcases ca_mem_ts _ _ a ha with ⟨x, hmx, hts'⟩ | ⟨y, hmy, hts'⟩
    · rw [hts']
      show (mergeRec p1 p2).timestamp < x.timestamp
      simpa [mergeRec] using hx1 x hmx
    · rw [hts']
      show (mergeRec p1 p2).timestamp < y.timestamp
      simpa [mergeRec, hts] using hy1 y hmy

theorem ca_cons_lt (p1 : AggRec) (A B : List AggRec)
    (hB : ∀ b ∈ B, p1.timestamp < b.timestamp) :
    combine_aggregations (p1 :: A) B = p1 :: combine_aggregations A B := by
  cases B with
  | nil => rw [ca_nil_right, ca_nil_right]
  | cons b B' =>
    rw [ca_cons_cons, if_pos (hB b (List.mem_cons_self b B'))]

theorem ca_cons_gt (p2 : AggRec) (A B : List AggRec)
    (hA : ∀ a ∈ A, p2.timestamp < a.timestamp) :
    combine_aggregations A (p2 :: B) = p2 :: combine_aggregations A B := by
  cases A with
  | nil => rw [ca_nil_left, ca_nil_left]
  | cons a A' =>
    have h := hA a (List.mem_cons_self a A')
    rw [ca_cons_cons, if_neg (by omega), if_pos h]

theorem ca_filter (P : ℤ → Bool) :
    ∀ (xs ys : List AggRec),
      List.Pairwise (fun a b : AggRec => a.timestamp < b.timestamp) xs →
      List.Pairwise (fun a b : AggRec => a.timestamp < b.timestamp) ys →
      (combine_aggregations xs ys).filter (fun a => P a.timestamp) =
        combine_aggregations (xs.filter fun a => P a.timestamp)
          (ys.filter fun a => P a.timestamp) := by
  intro xs ys
  induction xs, ys using combine_aggregations.induct with
  | case1 ys =>
    intro _ _
    rw [ca_nil_left, List.filter_nil, ca_nil_left]
  | case2 xs _ =>
    intro _ _
    rw [ca_nil_right, List.filter_nil, ca_nil_right]
  | case3 p1 r1 p2 r2 hlt ih =>
    intro hx hy
    rcases List.pairwise_cons.1 hx with ⟨hx1, hx2⟩
    rw [ca_cons_cons, if_pos hlt]
    by_cases h1 : P p1.timestamp
    · have e1 : (p1 :: combine_aggregations r1 (p2 :: r2)).filter
          (fun a => P a.timestamp) =
          p1 :: (combine_aggregations r1 (p2 :: r2)).filter (fun a => P a.timestamp) := by
        rw [List.filter_cons, if_pos (by simpa using h1)]
      have e2 : (p1 :: r1).filter (fun a => P a.timestamp) =
          p1 :: r1.filter (fun a => P a.timestamp) := by
        rw [List.filter_cons, if_pos (by simpa using h1)]
      rw [e1, e2, ih hx2 hy]
      refine (ca_cons_lt p1 _ _ ?_).symm
      intro b hb
      rcases List.mem_cons.1 (List.mem_of_mem_filter hb) with rfl | hb'
      · exact hlt
      · exact hlt.trans ((List.pairwise_cons.1 hy).1 b hb')
    · have e1 : (p1 :: combine_aggregations r1 (p2 :: r2)).filter
          (fun a => P a.timestamp) =
          (combine_aggregations r1 (p2 :: r2)).filter (fun a => P a.timestamp) := by
        rw [List.filter_cons, if_neg (by simpa using h1)]
      have e2 : (p1 :: r1).filter (fun a => P a.timestamp) =
          r1.filter (fun a => P a.timestamp) := by
        rw [List.filter_cons, if_neg (by simpa using h1)]
      rw [e1, e2]
      exact ih hx2 hy
  | case4 p1 r1 p2 r2 hnlt hlt ih =>
    intro hx hy
    rcases List.pairwise_cons.1 hy with ⟨hy1, hy2⟩
    rw [ca_cons_cons, if_neg hnlt, if_pos hlt]
    by_cases h2 : P p2.timestamp
    · have e1 : (p2 :: combine_aggregations (p1 :: r1) r2).filter
          (fun a => P a.timestamp) =
          p2 :: (combine_aggregations (p1 :: r1) r2).filter (fun a => P a.timestamp) := by
        rw [List.filter_cons, if_pos (by simpa using h2)]
      have e2 : (p2 :: r2).filter (fun a => P a.timestamp) =
          p2 :: r2.filter (fun a => P a.timestamp) := by
        rw [List.filter_cons, if_pos (by simpa using h2)]
      rw [e1, e2, ih hx hy2]
      refine (ca_cons_gt p2 _ _ ?_).symm
      intro a ha
      rcases List.mem_cons.1 (List.mem_of_mem_filter ha) with rfl | ha'
      · exact hlt
      · exact hlt.trans ((List.pairwise_cons.1 hx).1 a ha')
    · have e1 : (p2 :: combine_aggregations (p1 :: r1) r2).filter
          (fun a => P a.timestamp) =
          (combine_aggregations (p1 :: r1) r2).filter (fun a => P a.timestamp) := by
        rw [List.filter_cons, if_neg (by simpa using h2)]
      have e2 : (p2 :: r2).filter (fun a => P a.timestamp) =
          r2.filter (fun a => P a.timestamp) := by
        rw [List.filter_cons, if_neg (by simpa using h2)]
      rw [e1, e2]
      exact ih hx hy2
  | case5 p1 r1 p2 r2 hnlt hnlt' ih =>
    intro hx hy
    rcases List.pairwise_cons.1 hx with ⟨hx1, hx2⟩
    rcases List.pairwise_cons.1 hy with ⟨hy1, hy2⟩
    have hts : p2.timestamp = p1.timestamp :=
      le_antisymm (not_lt.1 hnlt) (not_lt.1 hnlt')
    rw [ca_cons_cons, if_neg hnlt, if_neg hnlt']
    by_cases h1 : P p1.timestamp
    · have e0 : (mergeRec p1 p2 :: combine_aggregations r1 r2).filter
          (fun a => P a.timestamp) =
          mergeRec p1 p2 :: (combine_aggregations r1 r2).filter (fun a => P a.timestamp) := by
        rw [List.filter_cons, if_pos (by simpa [mergeRec] using h1)]
      have e1 : (p1 :: r1).filter (fun a => P a.timestamp) =
          p1 :: r1.filter (fun a => P a.timestamp) := by
        rw [List.filter_cons, if_pos (by simpa using h1)]
      have e2 : (p2 :: r2).filter (fun a => P a.timestamp) =
          p2 :: r2.filter (fun a => P a.timestamp) := by
        rw [List.filter_cons, if_pos (by simp [hts]; simpa using h1)]
      rw [e0, e1, e2, ih hx2 hy2, ca_cons_cons, if_neg hnlt, if_neg hnlt']
    · have e0 : (mergeRec p1 p2 :: combine_aggregations r1 r2).filter
          (fun a => P a.timestamp) =
          (combine_aggregations r1 r2).filter (fun a => P a.timestamp) := by
        rw [List.filter_cons, if_neg (by simpa [mergeRec] using h1)]
      have e1 : (p1 :: r1).filter (fun a => P a.timestamp) =
          r1.filter (fun a => P a.timestamp) := by
        rw [List.filter_cons, if_neg (by simpa using h1)]
      have e2 : (p2 :: r2).filter (fun a => P a.timestamp) =
          r2.filter (fun a => P a.timestamp) := by
        rw [List.filter_cons, if_neg (by simp [hts]; simpa using h1)]
      rw [e0, e1, e2]
      exact ih hx2 hy2

/-! ### Equality of strictly sorted aggregate lists from their per-bin
filters -/

theorem strict_sorted_ext :
    ∀ (l₁ l₂ : List AggRec),
      List.Pairwise (fun a b : AggRec => a.timestamp < b.timestamp) l₁ →
      List.Pairwise (fun a b : AggRec => a.timestamp < b.timestamp) l₂ →
      (∀ g : ℤ, l₁.filter (fun a => decide (a.timestamp = g)) =
        l₂.filter (fun a => decide (a.timestamp = g))) →
      l₁ = l₂ := by
  intro l₁
  induction l₁ with
  | nil =>
    intro l₂ _ _ hf
    cases l₂ with
    | nil => rfl
    | cons y ys =>
      have h := hf y.timestamp
      rw [List.filter_nil, List.filter_cons, if_pos (by simp)] at h
      exact absurd h.symm (by simp)
  | cons x xs ih =>
    intro l₂ h₁ h₂ hf
    cases l₂ with
    | nil =>
      have h := hf x.timestamp
      rw [List.filter_nil, List.filter_cons, if_pos (by simp)] at h
      exact absurd h (by simp)
    | cons y ys =>
      rcases List.pairwise_cons.1 h₁ with ⟨hx1, hx2⟩
      rcases List.pairwise_cons.1 h₂ with ⟨hy1, hy2⟩
      have hxs_nil : xs.filter (fun a => decide (a.timestamp = x.timestamp)) = [] :=
        List.filter_eq_nil_iff.2 fun a ha => by
          have := hx1 a ha
          simp only [decide_eq_true_eq]
          omega
      have hys_nil : ys.filter (fun a => decide (a.timestamp = y.timestamp)) = [] :=
        List.filter_eq_nil_iff.2 fun a ha => by
          have := hy1 a ha
          simp only [decide_eq_true_eq]
          omega
      by_cases hts : y.timestamp = x.timestamp
      · have hxy : x = y := by
          have h := hf x.timestamp
          rw [List.filter_cons, if_pos (by simp), hxs_nil, List.filter_cons,
            if_pos (by simp [hts])] at h
          have h' : ys.filter (fun a => decide (a.timestamp = x.timestamp)) = [] := by
            rw [← hts]
            exact hys_nil
          rw [h'] at h
          exact (List.cons.inj h).1
        rw [hxy]
        congr 1
        refine ih ys hx2 hy2 ?_
        intro g
        by_cases hg : g = x.timestamp
        · rw [hg, hxs_nil, ← hts]
          exact hys_nil.symm
        · have h := hf g
          rw [List.filter_cons, if_neg (by simp; omega), List.filter_cons,
            if_neg (by simp; omega)] at h
          exact h
      · exfalso
        have h := hf x.timestamp
        rw [List.filter_cons, if_pos (by simp), hxs_nil, List.filter_cons,
          if_neg (by simp; omega)] at h
        have hxmem : x ∈ ys := by
          have : x ∈ ys.filter (fun a => decide (a.timestamp = x.timestamp)) := by
            rw [← h]
            exact List.mem_singleton.2 rfl
          exact List.mem_of_mem_filter this
        have h' := hf y.timestamp
        rw [List.filter_cons, if_neg (by simp; omega), List.filter_cons,
          if_pos (by simp), hys_nil] at h'
        have hymem : y ∈ xs := by
          have : y ∈ xs.filter (fun a => decide (a.timestamp = y.timestamp)) := by
            rw [h']
            exact List.mem_singleton.2 rfl
          exact List.mem_of_mem_filter this
        have h1 := hy1 x hxmem
        have h2 := hx1 y hymem
        omega

/-! ### `mkAggRec` is determined by the multiset of window values -/

theorem mkAggRec_perm (g : ℤ) {w₁ w₂ : List ℚ} (h : w₁.Perm w₂) :
    mkAggRec g w₁ = mkAggRec g w₂ := by
  unfold mkAggRec
  rw [pyMin_perm h, pyMax_perm h, pySum_eq, pySum_eq, h.sum_eq, h.length_eq]

theorem mkAggRec_append (g : ℤ) {w₁ w₂ : List ℚ} (h₁ : w₁ ≠ []) (h₂ : w₂ ≠ []) :
    mkAggRec g (w₁ ++ w₂) = mergeRec (mkAggRec g w₁) (mkAggRec g w₂) := by
  simp only [mkAggRec, mergeRec]
  rw [pyMin_append h₁ h₂, pyMax_append h₁ h₂, pySum_eq, pySum_eq, pySum_eq,
    List.sum_append, List.length_append]

/-! ### The per-bin content of `aggregate` -/

theorem aggregate_filter_eq (pts : List DatapointRec) (d : ℚ)
    (hb : List.Pairwise
      (fun p q : DatapointRec => bin_id d p.timestamp ≤ bin_id d q.timestamp) pts)
    (g : ℤ) :
    (aggregate pts d).filter (fun a => decide (a.timestamp = g)) =
      if (pts.filter fun q => decide (bin_id d q.timestamp = g)) = [] then []
      else [mkAggRec g
        ((pts.filter fun q => decide (bin_id d q.timestamp = g)).map (·.value))] := by
  rw [aggregate_eq_bin, List.filter_map]
  have hc : ∀ pr ∈ bin pts d (·.timestamp),
      ((fun a => decide (a.timestamp = g)) ∘
        fun pr => mkAggRec pr.1 (pr.2.map (·.value))) pr =
      (fun pr : ℤ × List DatapointRec => decide (pr.1 = g)) pr := by
    intro pr _
    simp [mkAggRec]
  rw [List.filter_congr hc]
  by_cases hne : (pts.filter fun q => decide (bin_id d q.timestamp = g)) = []
  · rw [if_pos hne]
    have hkeys : (bin pts d (·.timestamp)).filter
        (fun pr => decide (pr.1 = g)) = [] := by
      refine List.filter_eq_nil_iff.2 ?_
      intro pr hpr
      simp only [decide_eq_true_eq]
      intro hg
      rcases (bin_keys_mem pts d (·.timestamp) g).1 ⟨pr, hpr, hg⟩ with ⟨q, hq, hqg⟩
      have : q ∈ pts.filter fun q => decide (bin_id d q.timestamp = g) :=
        List.mem_filter.2 ⟨hq, by simpa using hqg⟩
      rw [hne] at this
      exact absurd this (by simp)
    rw [hkeys, List.map_nil]
  · rw [if_neg hne]
    rcases List.exists_mem_of_ne_nil _ hne with ⟨q, hq⟩
    rcases List.mem_filter.1 hq with ⟨hqpts, hqg⟩
    rcases (bin_keys_mem pts d (·.timestamp) g).2
        ⟨q, hqpts, by simpa using hqg⟩ with ⟨pr, hpr, hprg⟩
    have hsingle : (bin pts d (·.timestamp)).filter
        (fun pr => decide (pr.1 = g)) = [pr] := by
      rw [← hprg]
      exact filter_singleton_of_strict_keys _ pr (bin_keys pts d (·.timestamp) hb) hpr
    rw [hsingle, List.map_cons, List.map_nil]
    have hwin := bin_window_filter pts d (·.timestamp) hb pr hpr
    rw [← hprg, hwin]

/-! ### Combining the aggregates of two batches -/

theorem combine_aggregate_eq (u v w : List DatapointRec) (d : ℚ) (hd : 0 < d)
    (hu : List.Pairwise (fun p q : DatapointRec => p.timestamp ≤ q.timestamp) u)
    (hv : List.Pairwise (fun p q : DatapointRec => p.timestamp ≤ q.timestamp) v)
    (hw : List.Pairwise (fun p q : DatapointRec => p.timestamp ≤ q.timestamp) w)
    (hperm : w.Perm (u ++ v)) :
    combine_aggregations (aggregate u d) (aggregate v d) = aggregate w d := by
  have hbu : List.Pairwise
      (fun p q : DatapointRec => bin_id d p.timestamp ≤ bin_id d q.timestamp) u :=
    hu.imp fun h => bin_id_mono hd h
  have hbv : List.Pairwise
      (fun p q : DatapointRec => bin_id d p.timestamp ≤ bin_id d q.timestamp) v :=
    hv.imp fun h => bin_id_mono hd h
  have hbw : List.Pairwise
      (fun p q : DatapointRec => bin_id d p.timestamp ≤ bin_id d q.timestamp) w :=
    hw.imp fun h => bin_id_mono hd h
  have hsu := aggregate_ts_sorted u d hd hu
  have hsv := aggregate_ts_sorted v d hd hv
  have hsw := aggregate_ts_sorted w d hd hw
  refine strict_sorted_ext _ _ (ca_sorted _ _ hsu hsv) hsw ?_
  intro g
  rw [ca_filter (fun t => decide (t = g)) _ _ hsu hsv]
  rw [aggregate_filter_eq u d hbu g, aggregate_filter_eq v d hbv g,
    aggregate_filter_eq w d hbw g]
  have hwf : (w.filter fun q => decide (bin_id d q.timestamp = g)).Perm
      ((u.filter fun q => decide (bin_id d q.timestamp = g)) ++
        (v.filter fun q => decide (bin_id d q.timestamp = g))) := by
    have := hperm.filter fun q => decide (bin_id d q.timestamp = g)
    rwa [List.filter_append] at this
  by_cases hU : (u.filter fun q => decide (bin_id d q.timestamp = g)) = [] <;>
    by_cases hV : (v.filter fun q => decide (bin_id d q.timestamp = g)) = []
  · have hW : (w.filter fun q => decide (bin_id d q.timestamp = g)) = [] := by
      rw [hU, hV] at hwf
      exact hwf.eq_nil
    rw [if_pos hU, if_pos hV, if_pos hW, ca_nil_left]
  · have hW : (w.filter fun q => decide (bin_id d q.timestamp = g)) ≠ [] := by
      intro hn
      rw [hn, hU, List.nil_append] at hwf
      exact hV hwf.symm.eq_nil
    rw [if_pos hU, if_neg hV, if_neg hW, ca_nil_left]
    have : (w.filter fun q => decide (bin_id d q.timestamp = g)).Perm
        (v.filter fun q => decide (bin_id d q.timestamp = g)) := by
      rw [hU, List.nil_append] at hwf
      exact hwf
    rw [mkAggRec_perm g (this.map (·.value))]
  · have hW : (w.filter fun q => decide (bin_id d q.timestamp = g)) ≠ [] := by
      intro hn
      rw [hn, hV, List.append_nil] at hwf
      exact hU hwf.symm.eq_nil
    rw [if_neg hU, if_pos hV, if_neg hW, ca_nil_right]
    have : (w.filter fun q => decide (bin_id d q.timestamp = g)).Perm
        (u.filter fun q => decide (bin_id d q.timestamp = g)) := by
      rw [hV, List.append_nil] at hwf
      exact hwf
    rw [mkAggRec_perm g (this.map (·.value))]
  · have hW : (w.filter fun q => decide (bin_id d q.timestamp = g)) ≠ [] := by
      intro hn
      rw [hn] at hwf
      rcases List.append_eq_nil.1 hwf.symm.eq_nil with ⟨h1, _⟩
      exact hU h1
    rw [if_neg hU, if_neg hV, if_neg hW]
    rw [ca_cons_cons, if_neg (by simp [mkAggRec]), if_neg (by simp [mkAggRec]),
      ca_nil_left]
    have hmu : (u.filter fun q => decide (bin_id d q.timestamp = g)).map (·.value) ≠ [] := by
      simpa using hU
    have hmv : (v.filter fun q => decide (bin_id d q.timestamp = g)).map (·.value) ≠ [] := by
      simpa using hV
    have e1 : mergeRec
        (mkAggRec g ((u.filter fun q => decide (bin_id d q.timestamp = g)).map (·.value)))
        (mkAggRec g ((v.filter fun q => decide (bin_id d q.timestamp = g)).map (·.value))) =
        mkAggRec g (((u.filter fun q => decide (bin_id d q.timestamp = g)).map (·.value)) ++
          ((v.filter fun q => decide (bin_id d q.timestamp = g)).map (·.value))) :=
      (mkAggRec_append g hmu hmv).symm
    rw [e1]
    have e2 : (w.filter fun q => decide (bin_id d q.timestamp = g)).map (·.value) |>.Perm
        (((u.filter fun q => decide (bin_id d q.timestamp = g)).map (·.value)) ++
          ((v.filter fun q => decide (bin_id d q.timestamp = g)).map (·.value))) := by
      have := hwf.map (·.value)
      rwa [List.map_append] at this
    rw [mkAggRec_perm g e2]

/-! ### Bin labels are file-span multiples; paths of bin labels -/

theorem spanNat_cast (f : Fidelity) : ((spanNat f : ℕ) : ℚ) = max_duration f := by
  cases f <;> decide

theorem bin_id_span (f : Fidelity) {t : ℚ} (ht : 0 ≤ t) :
    bin_id (max_duration f) t = ⌊t / max_duration f⌋ * (spanNat f : ℤ) := by
  have hd := max_duration_pos f
  have hfl : (0:ℤ) ≤ ⌊t / max_duration f⌋ :=
    Int.floor_nonneg.2 (div_nonneg ht hd.le)
  unfold bin_id
  rw [pyInt_eq_floor (div_nonneg ht hd.le)]
  have h2 : ((⌊t / max_duration f⌋ : ℚ) * max_duration f) =
      (((⌊t / max_duration f⌋ * (spanNat f : ℤ)) : ℤ) : ℚ) := by
    rw [← spanNat_cast f]
    push_cast
    ring
  rw [h2, pyInt_eq_floor (by
    exact_mod_cast mul_nonneg hfl (Int.natCast_nonneg (spanNat f))),
    Int.floor_intCast]

theorem bin_id_nonneg {d : ℚ} (hd : 0 < d) {t : ℚ} (ht : 0 ≤ t) :
    0 ≤ bin_id d t := by
  unfold bin_id
  rw [pyInt_eq_floor (div_nonneg ht hd.le)]
  have h1 : (0:ℚ) ≤ (⌊t / d⌋ : ℚ) := by
    exact_mod_cast Int.floor_nonneg.2 (div_nonneg ht hd.le)
  have h2 : (0:ℚ) ≤ (⌊t / d⌋ : ℚ) * d := mul_nonneg h1 hd.le
  rw [pyInt_eq_floor h2]
  exact Int.floor_nonneg.2 h2

theorem spanNat_pos (f : Fidelity) : 0 < spanNat f := by cases f <;> decide

theorem floor_mul_span_div (f : Fidelity) (n : ℤ) :
    ⌊((n * (spanNat f : ℤ) : ℤ) : ℚ) / max_duration f⌋ = n := by
  have hs : ((spanNat f : ℕ) : ℚ) ≠ 0 := by
    rw [spanNat_cast f]
    exact (max_duration_pos f).ne'
  have h : ((n * (spanNat f : ℤ) : ℤ) : ℚ) / max_duration f = (n : ℚ) := by
    rw [← spanNat_cast f]
    push_cast
    field_simp
  rw [h, Int.floor_intCast]

theorem shardPathOf_bin_id (f : Fidelity) (D : String) {t : ℚ} (ht : 0 ≤ t) :
    shardPathOf ((bin_id (max_duration f) t : ℤ) : ℚ) D f = shardPathOf t D f := by
  refine shardPathOf_congr f D ?_
  rw [bin_id_span f ht, floor_mul_span_div]

theorem shardPathOf_name (f : Fidelity) (D : String) (t : ℚ) :
    (shardPathOf t D f).name = ⌊t / max_duration f⌋ := rfl

theorem shardPathOf_fidelity (f : Fidelity) (D : String) (t : ℚ) :
    (shardPathOf t D f).fidelity = f := rfl

/-- Distinct span-multiple bin labels map to distinct shard paths. -/
theorem shardPathOf_span_injective (f : Fidelity) (D : String) {k1 k2 : ℤ}
    (n1 n2 : ℤ) (h1 : k1 = n1 * (spanNat f : ℤ)) (h2 : k2 = n2 * (spanNat f : ℤ))
    (hne : k1 ≠ k2) :
    shardPathOf (k1 : ℚ) D f ≠ shardPathOf (k2 : ℚ) D f := by
  intro heq
  apply hne
  have hn : (shardPathOf (k1 : ℚ) D f).name = (shardPathOf (k2 : ℚ) D f).name := by
    rw [heq]
  rw [shardPathOf_name, shardPathOf_name, h1, h2, floor_mul_span_div,
    floor_mul_span_div] at hn
  rw [h1, h2, hn]

/-! ### Characterisation of the per-tier write loops -/

theorem flatMap_filter_of_groups_path {α : Type} (key : α → ShardPath)
    (K : ℤ → ShardPath) :
    ∀ (gs : List (ℤ × List α)),
      (∀ pr ∈ gs, ∀ q ∈ pr.2, key q = K pr.1) →
      ∀ c : ShardPath,
        (gs.flatMap (·.2)).filter (fun q => decide (key q = c)) =
          (gs.filter fun pr => decide (K pr.1 = c)).flatMap (·.2) := by
  intro gs
  induction gs with
  | nil => intro _ c; simp
  | cons pr rest ih =>
    intro hw c
    rw [List.flatMap_cons, List.filter_append, List.filter_cons]
    by_cases h : K pr.1 = c
    · rw [if_pos (by simpa using h), List.flatMap_cons]
      congr 1
      · refine List.filter_eq_self.2 ?_
        intro q hq
        simpa using (hw pr (by simp) q hq).trans h
      · exact ih (fun pr' h' q hq => hw pr' (by simp [h']) q hq) c
    · rw [if_neg (by simpa using h)]
      have hnil : pr.2.filter (fun q => decide (key q = c)) = [] := by
        refine List.filter_eq_nil_iff.2 ?_
        intro q hq
        simpa using fun hk => h ((hw pr (by simp) q hq).symm.trans hk)
      rw [hnil, List.nil_append]
      exact ih (fun pr' h' q hq => hw pr' (by simp [h']) q hq) c

theorem putAggBins_char (D : String) (f : Fidelity) :
    ∀ (gs : List (ℤ × List AggRec)) (σ : AggStore),
      (∀ pr ∈ gs, (0:ℚ) ≤ ((pr.1 : ℤ) : ℚ)) →
      (gs.map fun pr => shardPathOf ((pr.1 : ℤ) : ℚ) D f).Nodup →
      (putAggBins D f σ gs).2 = none ∧
      ∀ p : ShardPath,
        (putAggBins D f σ gs).1 p =
          combine_aggregations (σ p)
            ((gs.filter fun pr => decide (shardPathOf ((pr.1 : ℤ) : ℚ) D f = p)).flatMap
              (·.2)) := by
  intro gs
  induction gs with
  | nil =>
    intro σ _ _
    refine ⟨rfl, ?_⟩
    intro p
    rw [List.filter_nil, List.flatMap_nil, ca_nil_right]
    rfl
  | cons kw rest ih =>
    intro σ hnn hnd
    obtain ⟨k, w⟩ := kw
    have hk : (0:ℚ) ≤ ((k : ℤ) : ℚ) := hnn (k, w) (by simp)
    rw [List.map_cons, List.nodup_cons] at hnd
    have hstep : putAggBins D f σ ((k, w) :: rest) =
        putAggBins D f
          (write_agg_datapoints σ (shardPathOf ((k : ℤ) : ℚ) D f) w) rest := by
      rw [putAggBins, subpath_eq_some hk D f]
    rcases ih (write_agg_datapoints σ (shardPathOf ((k : ℤ) : ℚ) D f) w)
        (fun pr h => hnn pr (by simp [h])) hnd.2 with ⟨hres, hform⟩
    refine ⟨by rw [hstep]; exact hres, ?_⟩
    intro p
    rw [hstep, hform p, List.filter_cons]
    by_cases hp : shardPathOf ((k : ℤ) : ℚ) D f = p
    · rw [if_pos (by simpa using hp)]
      have hrest : rest.filter
          (fun pr => decide (shardPathOf ((pr.1 : ℤ) : ℚ) D f = p)) = [] := by
        refine List.filter_eq_nil_iff.2 ?_
        intro pr hpr
        simp only [decide_eq_true_eq]
        intro hpr'
        exact hnd.1 (by
          rw [← hp] at hpr'
          exact (List.mem_map.2 ⟨pr, hpr, hpr'⟩))
      rw [hrest, List.flatMap_cons, List.flatMap_nil, List.append_nil,
        ca_nil_right]
      show write_agg_datapoints σ (shardPathOf ((k : ℤ) : ℚ) D f) w p =
        combine_aggregations (σ p) w
      rw [write_agg_datapoints, AggStore.update, ← hp, if_pos rfl, hp]
    · rw [if_neg (by simpa using hp)]
      have hσ : write_agg_datapoints σ (shardPathOf ((k : ℤ) : ℚ) D f) w p = σ p := by
        rw [write_agg_datapoints, AggStore.update, if_neg (fun hq => hp hq.symm)]
      rw [hσ]

theorem putFullBins_char (D : String) :
    ∀ (gs : List (ℤ × List DatapointRec)) (σ : FullStore),
      (∀ pr ∈ gs, (0:ℚ) ≤ ((pr.1 : ℤ) : ℚ)) →
      (gs.map fun pr => shardPathOf ((pr.1 : ℤ) : ℚ) D .FIDELITY_FULL).Nodup →
      (putFullBins D σ gs).2 = none ∧
      ∀ p : ShardPath,
        (putFullBins D σ gs).1 p =
          σ p ++
            ((gs.filter fun pr =>
              decide (shardPathOf ((pr.1 : ℤ) : ℚ) D .FIDELITY_FULL = p)).flatMap
                (·.2)) := by
  intro gs
  induction gs with
  | nil =>
    intro σ _ _
    refine ⟨rfl, ?_⟩
    intro p
    rw [List.filter_nil, List.flatMap_nil, List.append_nil]
    rfl
  | cons kw rest ih =>
    intro σ hnn hnd
    obtain ⟨k, w⟩ := kw
    have hk : (0:ℚ) ≤ ((k : ℤ) : ℚ) := hnn (k, w) (by simp)
    rw [List.map_cons, List.nodup_cons] at hnd
    have hstep : putFullBins D σ ((k, w) :: rest) =
        putFullBins D
          (write_datapoints σ (shardPathOf ((k : ℤ) : ℚ) D .FIDELITY_FULL) w) rest := by
      rw [putFullBins, subpath_eq_some hk D .FIDELITY_FULL]
    rcases ih (write_datapoints σ (shardPathOf ((k : ℤ) : ℚ) D .FIDELITY_FULL) w)
        (fun pr h => hnn pr (by simp [h])) hnd.2 with ⟨hres, hform⟩
    refine ⟨by rw [hstep]; exact hres, ?_⟩
    intro p
    rw [hstep, hform p, List.filter_cons]
    by_cases hp : shardPathOf ((k : ℤ) : ℚ) D .FIDELITY_FULL = p
    · rw [if_pos (by simpa using hp)]
      have hrest : rest.filter
          (fun pr =>
            decide (shardPathOf ((pr.1 : ℤ) : ℚ) D .FIDELITY_FULL = p)) = [] := by
        refine List.filter_eq_nil_iff.2 ?_
        intro pr hpr
        simp only [decide_eq_true_eq]
        intro hpr'
        exact hnd.1 (by
          rw [← hp] at hpr'
          exact (List.mem_map.2 ⟨pr, hpr, hpr'⟩))
      rw [hrest, List.flatMap_cons, List.flatMap_nil, List.append_nil,
        List.append_nil]
      show write_datapoints σ (shardPathOf ((k : ℤ) : ℚ) D .FIDELITY_FULL) w p =
        σ p ++ w
      rw [write_datapoints, FullStore.update, ← hp, if_pos rfl, hp]
    · rw [if_neg (by simpa using hp)]
      have hσ : write_datapoints σ
          (shardPathOf ((k : ℤ) : ℚ) D .FIDELITY_FULL) w p = σ p := by
        rw [write_datapoints, FullStore.update, if_neg (fun hq => hp hq.symm)]
      rw [hσ]

/-! ### Bin groups of nonnegative, sorted records: key and path facts -/

theorem bin_key_rep {α : Type} (L : List α) (d : ℚ) (tsf : α → ℚ) :
    ∀ pr ∈ bin L d tsf, ∃ q ∈ L, bin_id d (tsf q) = pr.1 := by
  intro pr hpr
  exact (bin_keys_mem L d tsf pr.1).1 ⟨pr, hpr, rfl⟩

theorem bin_keys_nonneg {α : Type} (L : List α) (tsf : α → ℚ) {d : ℚ}
    (hd : 0 < d) (hL : ∀ a ∈ L, 0 ≤ tsf a) :
    ∀ pr ∈ bin L d tsf, (0:ℚ) ≤ ((pr.1 : ℤ) : ℚ) := by
  intro pr hpr
  rcases bin_key_rep L d tsf pr hpr with ⟨q, hq, hkey⟩
  have := bin_id_nonneg hd (hL q hq)
  rw [hkey] at this
  exact_mod_cast this

theorem bin_paths_nodup {α : Type} (L : List α) (tsf : α → ℚ) (f : Fidelity)
    (D : String) (hL : ∀ a ∈ L, 0 ≤ tsf a)
    (hmono : List.Pairwise (fun p q : α => tsf p ≤ tsf q) L) :
    ((bin L (max_duration f) tsf).map
      fun pr => shardPathOf ((pr.1 : ℤ) : ℚ) D f).Nodup := by
  have hkeys := bin_keys L (max_duration f) tsf
    (hmono.imp fun h => bin_id_mono (max_duration_pos f) h)
  rw [List.pairwise_map] at hkeys
  have hmul : ∀ pr ∈ bin L (max_duration f) tsf,
      ∃ n : ℤ, pr.1 = n * (spanNat f : ℤ) := by
    intro pr hpr
    rcases bin_key_rep L (max_duration f) tsf pr hpr with ⟨q, hq, hkey⟩
    exact ⟨⌊tsf q / max_duration f⌋, by rw [← hkey, bin_id_span f (hL q hq)]⟩
  have : List.Pairwise (fun pr1 pr2 : ℤ × List α =>
      shardPathOf ((pr1.1 : ℤ) : ℚ) D f ≠ shardPathOf ((pr2.1 : ℤ) : ℚ) D f)
      (bin L (max_duration f) tsf) := by
    refine List.Pairwise.imp_of_mem ?_ hkeys
    intro pr1 pr2 hm1 hm2 hlt
    rcases hmul pr1 hm1 with ⟨n1, hn1⟩
    rcases hmul pr2 hm2 with ⟨n2, hn2⟩
    exact shardPathOf_span_injective f D n1 n2 hn1 hn2 (ne_of_lt hlt)
  exact List.pairwise_map.mpr this

theorem bin_member_path {α : Type} (L : List α) (tsf : α → ℚ) (f : Fidelity)
    (D : String) (hL : ∀ a ∈ L, 0 ≤ tsf a) :
    ∀ pr ∈ bin L (max_duration f) tsf, ∀ q ∈ pr.2,
      shardPathOf (tsf q) D f = shardPathOf ((pr.1 : ℤ) : ℚ) D f := by
  intro pr hpr q hq
  have hqL : q ∈ L := by
    rw [← bin_flat L (max_duration f) tsf]
    exact List.mem_flatMap.2 ⟨pr, hpr, hq⟩
  have hkey := bin_windows L (max_duration f) tsf pr hpr q hq
  rw [← hkey, shardPathOf_bin_id f D (hL q hqL)]

/-- The contents of one tier's files after a bin list is written, expressed
against the flat record list. -/
theorem bin_filter_flat {α : Type} (L : List α) (tsf : α → ℚ) (f : Fidelity)
    (D : String) (hL : ∀ a ∈ L, 0 ≤ tsf a) (p : ShardPath) :
    ((bin L (max_duration f) tsf).filter
      (fun pr => decide (shardPathOf ((pr.1 : ℤ) : ℚ) D f = p))).flatMap (·.2) =
      L.filter (fun q => decide (shardPathOf (tsf q) D f = p)) := by
  have h := flatMap_filter_of_groups_path (fun q => shardPathOf (tsf q) D f)
    (fun k => shardPathOf ((k : ℤ) : ℚ) D f) (bin L (max_duration f) tsf)
    (bin_member_path L tsf f D hL) p
  rw [bin_flat] at h
  exact h.symm

/-! ### Per-tier and all-tier characterisation of `put`'s aggregate writes -/

theorem aggregate_ts_nonneg (pts : List DatapointRec) {d : ℚ} (hd : 0 < d)
    (hpts : ∀ q ∈ pts, 0 ≤ q.timestamp) :
    ∀ a ∈ aggregate pts d, 0 ≤ a.timestamp := by
  intro a ha
  rw [aggregate_eq_bin] at ha
  rcases List.mem_map.1 ha with ⟨pr, hpr, rfl⟩
  rcases bin_key_rep pts d (·.timestamp) pr hpr with ⟨q, hq, hkey⟩
  show (0:ℤ) ≤ pr.1
  rw [← hkey]
  exact bin_id_nonneg hd (hpts q hq)

theorem putAggTier_char (D : String) (f : Fidelity) (pts : List DatapointRec)
    (σ : AggStore) (hper : 0 < agg_period f)
    (hpts : ∀ q ∈ pts, 0 ≤ q.timestamp)
    (hsort : List.Pairwise (fun p q : DatapointRec => p.timestamp ≤ q.timestamp) pts) :
    (putAggTier D pts f σ).2 = none ∧
    ∀ p : ShardPath,
      (putAggTier D pts f σ).1 p =
        combine_aggregations (σ p)
          ((aggregate pts (agg_period f)).filter
            (fun a => decide (shardPathOf ((a.timestamp : ℤ) : ℚ) D f = p))) := by
  set L := aggregate pts (agg_period f) with hL
  have hLnn : ∀ a ∈ L, (0:ℚ) ≤ ((a.timestamp : ℤ) : ℚ) := by
    intro a ha
    exact_mod_cast aggregate_ts_nonneg pts hper hpts a ha
  have hLmono : List.Pairwise
      (fun p q : AggRec => ((p.timestamp : ℤ) : ℚ) ≤ ((q.timestamp : ℤ) : ℚ)) L := by
    refine (aggregate_ts_sorted pts (agg_period f) hper hsort).imp ?_
    intro a b h
    exact_mod_cast h.le
  rcases putAggBins_char D f (bin L (max_duration f) (fun a => (a.timestamp : ℚ)))
      σ (bin_keys_nonneg L (fun a => (a.timestamp : ℚ)) (max_duration_pos f) hLnn)
      (bin_paths_nodup L (fun a => (a.timestamp : ℚ)) f D hLnn hLmono)
    with ⟨hres, hform⟩
  refine ⟨hres, ?_⟩
  intro p
  rw [putAggTier] at *
  rw [hform p]
  congr 1
  exact bin_filter_flat L (fun a => (a.timestamp : ℚ)) f D hLnn p

theorem tier_filter_other (D : String) (f : Fidelity) (L : List AggRec)
    (p : ShardPath) (hne : p.fidelity ≠ f) :
    L.filter (fun a => decide (shardPathOf ((a.timestamp : ℤ) : ℚ) D f = p)) = [] := by
  refine List.filter_eq_nil_iff.2 ?_
  intro a _
  simp only [decide_eq_true_eq]
  intro h
  exact hne (by rw [← h]; rfl)

theorem putAggTiers_char (D : String) (pts : List DatapointRec)
    (hpts : ∀ q ∈ pts, 0 ≤ q.timestamp)
    (hsort : List.Pairwise (fun p q : DatapointRec => p.timestamp ≤ q.timestamp) pts) :
    ∀ (fs : List Fidelity) (σ : AggStore),
      (∀ f ∈ fs, 0 < agg_period f) → fs.Nodup →
      (putAggTiers D pts σ fs).2 = none ∧
      ∀ p : ShardPath,
        (putAggTiers D pts σ fs).1 p =
          if p.fidelity ∈ fs then
            combine_aggregations (σ p)
              ((aggregate pts (agg_period p.fidelity)).filter
                (fun a =>
                  decide (shardPathOf ((a.timestamp : ℤ) : ℚ) D p.fidelity = p)))
          else σ p := by
  intro fs
  induction fs with
  | nil =>
    intro σ _ _
    refine ⟨rfl, ?_⟩
    intro p
    rw [if_neg (by simp)]
    rfl
  | cons f fs' ih =>
    intro σ hper hnd
    rw [List.nodup_cons] at hnd
    rcases putAggTier_char D f pts σ (hper f (by simp)) hpts hsort with ⟨hres, hform⟩
    have hstep : putAggTiers D pts σ (f :: fs') =
        putAggTiers D pts (putAggTier D pts f σ).1 fs' := by
      rw [putAggTiers]
      rcases htier : putAggTier D pts f σ with ⟨σ₁, r⟩
      rw [htier] at hres
      simp only at hres
      rw [hres]
    rcases ih (putAggTier D pts f σ).1 (fun g hg => hper g (by simp [hg])) hnd.2
      with ⟨hres', hform'⟩
    refine ⟨by rw [hstep]; exact hres', ?_⟩
    intro p
    rw [hstep, hform' p]
    by_cases hpf : p.fidelity = f
    · have hnot : p.fidelity ∉ fs' := by rw [hpf]; exact hnd.1
      rw [if_neg hnot, hform p, if_pos (by simp [hpf]), hpf]
    · by_cases hmem : p.fidelity ∈ fs'
      · rw [if_pos hmem, if_pos (by simp [hmem]), hform p,
          tier_filter_other D f _ p hpf, ca_nil_right]
      · rw [if_neg hmem, if_neg (by simp [hpf, hmem]), hform p,
          tier_filter_other D f _ p hpf, ca_nil_right]

/-! ### The sort step of `put` -/

theorem sortPts_perm (l : List DatapointRec) : (sortPts l).Perm l :=
  List.mergeSort_perm l _

theorem sortPts_sorted (l : List DatapointRec) :
    List.Pairwise (fun a b : DatapointRec => a.timestamp ≤ b.timestamp)
      (sortPts l) := by
  have h := @List.sorted_mergeSort DatapointRec
    (fun a b : DatapointRec => decide (a.timestamp ≤ b.timestamp))
    (fun a b c h1 h2 => by
      simp only [decide_eq_true_eq] at h1 h2 ⊢
      exact h1.trans h2)
    (fun a b => by
      simp only [Bool.or_eq_true, decide_eq_true_eq]
      exact le_total a.timestamp b.timestamp)
    l
  exact h.imp fun hab => by simpa using hab

/-! ### The master characterisation of a successful `put` -/

theorem put_char (st : IndexState) (D : String) (points : List Datapoint)
    (hD : legalDatasetId D = true)
    (hpts : ∀ q ∈ points, 0 ≤ q.date) :
    (put st D points).2 = none ∧
    (put st D points).1.num_puts = st.num_puts + 1 ∧
    (put st D points).1.num_gets = st.num_gets ∧
    (∀ p : ShardPath,
      (put st D points).1.fullStore p =
        st.fullStore p ++
          ((sortPts (rawPoints points)).filter
            (fun q => decide (shardPathOf q.timestamp D .FIDELITY_FULL = p)))) ∧
    (∀ p : ShardPath,
      (put st D points).1.aggStore p =
        if p.fidelity ∈ aggFidelities then
          combine_aggregations (st.aggStore p)
            ((aggregate (sortPts (rawPoints points)) (agg_period p.fidelity)).filter
              (fun a =>
                decide (shardPathOf ((a.timestamp : ℤ) : ℚ) D p.fidelity = p)))
        else st.aggStore p) := by
  have hnn : ∀ q ∈ sortPts (rawPoints points), 0 ≤ q.timestamp := by
    intro q hq
    have hq' : q ∈ rawPoints points := ((sortPts_perm _).mem_iff).1 hq
    rcases List.mem_map.1 hq' with ⟨p, hp, rfl⟩
    exact hpts p hp
  have hsort := sortPts_sorted (rawPoints points)
  have hfullnn : ∀ pr ∈ bin (sortPts (rawPoints points)) MAX_DURATION_FULL
      (fun p => p.timestamp), (0:ℚ) ≤ ((pr.1 : ℤ) : ℚ) :=
    bin_keys_nonneg (sortPts (rawPoints points)) (fun p => p.timestamp)
      (max_duration_pos .FIDELITY_FULL) hnn
  have hfullnd : ((bin (sortPts (rawPoints points)) MAX_DURATION_FULL
      (fun p => p.timestamp)).map
      fun pr => shardPathOf ((pr.1 : ℤ) : ℚ) D .FIDELITY_FULL).Nodup :=
    bin_paths_nodup (sortPts (rawPoints points)) (fun p => p.timestamp)
      .FIDELITY_FULL D hnn hsort
  rcases hfb : putFullBins D st.fullStore
      (bin (sortPts (rawPoints points)) MAX_DURATION_FULL (fun p => p.timestamp))
    with ⟨σf, rf⟩
  rcases putFullBins_char D
      (bin (sortPts (rawPoints points)) MAX_DURATION_FULL (fun p => p.timestamp))
      st.fullStore hfullnn hfullnd with ⟨hfres, hfform⟩
  rw [hfb] at hfres hfform
  simp only at hfres hfform
  rcases hat : putAggTiers D (sortPts (rawPoints points)) st.aggStore aggFidelities
    with ⟨σa, ra⟩
  rcases putAggTiers_char D (sortPts (rawPoints points)) hnn hsort aggFidelities
      st.aggStore (by decide) (by decide) with ⟨hares, haform⟩
  rw [hat] at hares haform
  simp only at hares haform
  rw [hares] at hat
  rw [hfres] at hfb
  have hput : put st D points =
      ({ { st with num_puts := st.num_puts + 1 } with
          fullStore := σf, aggStore := σa }, none) := by
    simp only [put, hD, Bool.not_true, Bool.false_eq_true, if_false, hfb, hat]
  rw [hput]
  refine ⟨rfl, rfl, rfl, ?_, ?_⟩
  · intro p
    show σf p = _
    rw [hfform p]
    congr 1
    exact bin_filter_flat (sortPts (rawPoints points)) (fun p => p.timestamp)
      .FIDELITY_FULL D hnn p
  · intro p
    exact haform p

/-! ### Claim C2: associativity under split ingest -/

theorem rawPoints_append (A B : List Datapoint) :
    rawPoints (A ++ B) = rawPoints A ++ rawPoints B := by
  rw [rawPoints, rawPoints, rawPoints, List.map_append]

theorem aggFidelities_period_pos : ∀ f ∈ aggFidelities, 0 < agg_period f := by
  decide

/-- C2: for a valid dataset id and disjoint sample lists `A`, `B` of
nonnegative-timestamp samples, `put(D, A); put(D, B)` leaves every
aggregate-tier file with exactly the same records as the single call
`put(D, A ++ B)` on a fresh store. -/
theorem put_split_associativity (D : String) (A B : List Datapoint)
    (hD : legalDatasetId D = true)
    (hA : ∀ q ∈ A, 0 ≤ q.date) (hB : ∀ q ∈ B, 0 ≤ q.date)
    (hdisj : ∀ q ∈ A, q ∉ B) :
    ∀ p : ShardPath,
      (put (put initIndex D A).1 D B).1.aggStore p =
        (put initIndex D (A ++ B)).1.aggStore p := by
  intro p
  rcases put_char initIndex D A hD hA with ⟨_, _, _, _, haggA⟩
  rcases put_char (put initIndex D A).1 D B hD hB with ⟨_, _, _, _, haggB⟩
  have hAB : ∀ q ∈ A ++ B, 0 ≤ q.date := by
    intro q hq
    rcases List.mem_append.1 hq with h | h
    · exact hA q h
    · exact hB q h
  rcases put_char initIndex D (A ++ B) hD hAB with ⟨_, _, _, _, haggAB⟩
  rw [haggB p, haggAB p]
  by_cases hmem : p.fidelity ∈ aggFidelities
  · rw [if_pos hmem, if_pos hmem, haggA p, if_pos hmem]
    have hinit : initIndex.aggStore p = [] := rfl
    rw [hinit, ca_nil_left, ca_nil_left]
    have hper : 0 < agg_period p.fidelity := aggFidelities_period_pos _ hmem
    have hsu := aggregate_ts_sorted (sortPts (rawPoints A)) (agg_period p.fidelity)
      hper (sortPts_sorted _)
    have hsv := aggregate_ts_sorted (sortPts (rawPoints B)) (agg_period p.fidelity)
      hper (sortPts_sorted _)
    have hfilter := ca_filter
      (fun t : ℤ => decide (shardPathOf ((t : ℤ) : ℚ) D p.fidelity = p))
      (aggregate (sortPts (rawPoints A)) (agg_period p.fidelity))
      (aggregate (sortPts (rawPoints B)) (agg_period p.fidelity)) hsu hsv
    rw [← hfilter]
    have hperm : (sortPts (rawPoints (A ++ B))).Perm
        (sortPts (rawPoints A) ++ sortPts (rawPoints B)) := by
      refine (sortPts_perm (rawPoints (A ++ B))).trans ?_
      rw [rawPoints_append]
      exact List.Perm.append (sortPts_perm (rawPoints A)).symm
        (sortPts_perm (rawPoints B)).symm
    rw [combine_aggregate_eq (sortPts (rawPoints A)) (sortPts (rawPoints B))
      (sortPts (rawPoints (A ++ B))) (agg_period p.fidelity) hper
      (sortPts_sorted _) (sortPts_sorted _) (sortPts_sorted _) hperm]
  · rw [if_neg hmem, if_neg hmem, haggA p, if_neg hmem]

/-- Witness for C2: two singleton batches landing in distinct 1-second bins
give the same aggregate file as the combined batch, checked at the file of
the first sample at the 1-second tier. -/
theorem put_split_associativity_witness :
    (put (put initIndex "d" [⟨0, 1⟩]).1 "d" [⟨700, 2⟩]).1.aggStore
        (shardPathOf 0 "d" .FIDELITY_1) =
      (put initIndex "d" ([⟨0, 1⟩] ++ [⟨700, 2⟩])).1.aggStore
        (shardPathOf 0 "d" .FIDELITY_1) :=
  put_split_associativity "d" [⟨0, 1⟩] [⟨700, 2⟩] (by decide) (by decide)
    (by decide) (by decide) (shardPathOf 0 "d" .FIDELITY_1)

/-! ### The timestamps emitted by the `_subpaths` loop -/

theorem stepTimes_measure_dec {e step t : ℚ} (h : 0 < step) (hle : t ≤ e) :
    (⌊(e - (t + step)) / step⌋ + 1).toNat < (⌊(e - t) / step⌋ + 1).toNat := by
  have h1 : (e - (t + step)) / step = (e - t) / step - 1 := by
    field_simp
    ring
  have h2 : ⌊(e - (t + step)) / step⌋ = ⌊(e - t) / step⌋ - 1 := by
    rw [h1]
    exact_mod_cast Int.floor_sub_int ((e - t) / step) 1
  have h3 : 0 ≤ ⌊(e - t) / step⌋ :=
    Int.floor_nonneg.2 (div_nonneg (sub_nonneg.2 hle) h.le)
  rw [h2]
  omega

theorem stepTimes_neg_measure {e step t : ℚ} (h : 0 < step) (hlt : e < t) :
    (⌊(e - t) / step⌋ + 1).toNat = 0 := by
  have : (e - t) / step < 0 := div_neg_of_neg_of_pos (by linarith) h
  have : ⌊(e - t) / step⌋ < 0 := Int.floor_lt.2 (by simpa using this)
  omega

theorem stepTimes_self_mem (e step : ℚ) (h : 0 < step) (t : ℚ) :
    t ∈ stepTimes e step h t := by
  rw [stepTimes]
  split
  · exact List.mem_singleton.2 rfl
  · exact List.mem_cons_self _ _

theorem stepTimes_mem_ge (e step : ℚ) (h : 0 < step) :
    ∀ t x, x ∈ stepTimes e step h t → t ≤ x := by
  have H : ∀ n : ℕ, ∀ t, (⌊(e - t) / step⌋ + 1).toNat ≤ n →
      ∀ x, x ∈ stepTimes e step h t → t ≤ x := by
    intro n
    induction n with
    | zero =>
      intro t hm x hx
      have hlt : e < t := by
        by_contra hc
        push_neg at hc
        have h3 : 0 ≤ ⌊(e - t) / step⌋ :=
          Int.floor_nonneg.2 (div_nonneg (sub_nonneg.2 hc) h.le)
        omega
      rw [stepTimes, if_pos hlt] at hx
      rw [List.mem_singleton.1 hx]
    | succ n ih =>
      intro t hm x hx
      rw [stepTimes] at hx
      split at hx
      · rw [List.mem_singleton.1 hx]
      · rcases List.mem_cons.1 hx with rfl | hx'
        · rfl
        · have hle : t ≤ e := le_of_not_lt (by assumption)
          have hdec := stepTimes_measure_dec h hle
          have := ih (t + step) (by omega) x hx'
          linarith
  intro t
  exact H _ t (le_refl _)

theorem stepTimes_names_sorted (e step : ℚ) (h : 0 < step) :
    ∀ t, List.Pairwise (fun x y : ℚ => ⌊x / step⌋ < ⌊y / step⌋)
      (stepTimes e step h t) := by
  have H : ∀ n : ℕ, ∀ t, (⌊(e - t) / step⌋ + 1).toNat ≤ n →
      List.Pairwise (fun x y : ℚ => ⌊x / step⌋ < ⌊y / step⌋)
        (stepTimes e step h t) := by
    intro n
    induction n with
    | zero =>
      intro t hm
      have hlt : e < t := by
        by_contra hc
        push_neg at hc
        have h3 : 0 ≤ ⌊(e - t) / step⌋ :=
          Int.floor_nonneg.2 (div_nonneg (sub_nonneg.2 hc) h.le)
        omega
      rw [stepTimes, if_pos hlt]
      simp
    | succ n ih =>
      intro t hm
      rw [stepTimes]
      split
      · simp
      · have hle : t ≤ e := le_of_not_lt (by assumption)
        have hdec := stepTimes_measure_dec h hle
        refine List.pairwise_cons.2 ⟨?_, ih (t + step) (by omega)⟩
        intro x hx
        have hge := stepTimes_mem_ge e step h (t + step) x hx
        have h1 : ⌊(t + step) / step⌋ = ⌊t / step⌋ + 1 := by
          have : (t + step) / step = t / step + 1 := by
            field_simp
          rw [this]
          exact_mod_cast Int.floor_add_int (t / step) 1
        have h2 : ⌊(t + step) / step⌋ ≤ ⌊x / step⌋ :=
          Int.floor_mono ((div_le_div_right h).2 hge)
        omega
  intro t
  exact H _ t (le_refl _)

theorem stepTimes_cover (e step : ℚ) (h : 0 < step) :
    ∀ t, ∀ u : ℚ, t ≤ u → u ≤ e →
      ∃ x ∈ stepTimes e step h t, ⌊x / step⌋ = ⌊u / step⌋ := by
  have H : ∀ n : ℕ, ∀ t, (⌊(e - t) / step⌋ + 1).toNat ≤ n →
      ∀ u : ℚ, t ≤ u → u ≤ e →
        ∃ x ∈ stepTimes e step h t, ⌊x / step⌋ = ⌊u / step⌋ := by
    intro n
    induction n with
    | zero =>
      intro t hm u htu hue
      have h3 : 0 ≤ ⌊(e - t) / step⌋ :=
        Int.floor_nonneg.2 (div_nonneg (sub_nonneg.2 (le_trans htu hue)) h.le)
      omega
    | succ n ih =>
      intro t hm u htu hue
      have hle : t ≤ e := le_trans htu hue
      have hnlt : ¬ e < t := not_lt.2 hle
      rw [stepTimes, if_neg hnlt]
      by_cases hcase : ⌊u / step⌋ = ⌊t / step⌋
      · exact ⟨t, List.mem_cons_self _ _, hcase.symm⟩
      · have hstep1 : ⌊(t + step) / step⌋ = ⌊t / step⌋ + 1 := by
          have hst : (t + step) / step = t / step + 1 := by
            field_simp
          rw [hst]
          exact_mod_cast Int.floor_add_int (t / step) 1
        have hdec := stepTimes_measure_dec h hle
        by_cases hcase2 : t + step ≤ u
        · obtain ⟨x, hx, hfx⟩ := ih (t + step) (by omega) u hcase2 hue
          exact ⟨x, List.mem_cons_of_mem _ hx, hfx⟩
        · push_neg at hcase2
          have hlo : ⌊t / step⌋ ≤ ⌊u / step⌋ :=
            Int.floor_mono ((div_le_div_right h).2 htu)
          have hhi : ⌊u / step⌋ ≤ ⌊(t + step) / step⌋ :=
            Int.floor_mono ((div_le_div_right h).2 hcase2.le)
          have hfeq : ⌊(t + step) / step⌋ = ⌊u / step⌋ := by omega
          exact ⟨t + step,
            List.mem_cons_of_mem _ (stepTimes_self_mem e step h (t + step)), hfeq⟩
  intro t
  exact H _ t (le_refl _)

/-! ### `_subpaths` on a valid window returns one shard path per time step -/

theorem pathsFor_ok (D : String) (f : Fidelity) :
    ∀ l : List ℚ, (∀ x ∈ l, 0 ≤ x) →
      pathsFor D f l = Except.ok (l.map fun x => shardPathOf x D f) := by
  intro l
  induction l with
  | nil => intro _; rfl
  | cons x xs ih =>
    intro hall
    rw [pathsFor, subpath_eq_some (hall x (List.mem_cons_self _ _)),
      ih fun y hy => hall y (List.mem_cons_of_mem _ hy)]
    rfl

/-! ### Gathering a list back from per-shard filters -/

theorem flatMap_congr_mem {α β : Type} (l : List α) (f g : α → List β)
    (h : ∀ a ∈ l, f a = g a) : l.flatMap f = l.flatMap g := by
  induction l with
  | nil => rfl
  | cons x xs ih =>
    rw [List.flatMap_cons, List.flatMap_cons, h x (List.mem_cons_self _ _),
      ih fun a ha => h a (List.mem_cons_of_mem _ ha)]

theorem flatMap_filter_perm {α β : Type} [DecidableEq β] :
    ∀ (P : List β) (L : List α) (pf : α → β), P.Nodup →
      (∀ q ∈ L, pf q ∈ P) →
      (P.flatMap fun p => L.filter fun q => decide (pf q = p)).Perm L := by
  intro P
  induction P with
  | nil =>
    intro L pf _ hcov
    have : L = [] := List.eq_nil_iff_forall_not_mem.2 fun q hq =>
      (List.not_mem_nil _) (hcov q hq)
    simp [this]
  | cons p P' ih =>
    intro L pf hnd hcov
    rw [List.flatMap_cons]
    have htail :
        (P'.flatMap fun p' => L.filter fun q => decide (pf q = p')) =
          P'.flatMap fun p' =>
            (L.filter fun q => !decide (pf q = p)).filter
              fun q => decide (pf q = p') := by
      refine (flatMap_congr_mem _ _ _ fun p' hp' => ?_)
      rw [List.filter_filter]
      refine (List.filter_congr fun a _ => ?_)
      by_cases hap : pf a = p'
      · have hne : p' ≠ p := by
          intro hc
          exact (List.nodup_cons.1 hnd).1 (hc ▸ hp')
        simp [hap, hne]
      · simp [hap]
    rw [htail]
    have hcov' : ∀ q ∈ L.filter fun q => !decide (pf q = p), pf q ∈ P' := by
      intro q hq
      have hmem := List.mem_of_mem_filter hq
      have hprop := List.of_mem_filter hq
      have hne : pf q ≠ p := by
        intro hc
        simp [hc] at hprop
      rcases List.mem_cons.1 (hcov q hmem) with hc | hc
      · exact absurd hc hne
      · exact hc
    have hperm := ih (L.filter fun q => !decide (pf q = p)) pf
      (List.nodup_cons.1 hnd).2 hcov'
    exact List.Perm.trans (List.Perm.append_left _ hperm)
      (List.filter_append_perm _ L)

/-! ### Claim C1: round trip at full fidelity -/

/-- Claim C1, counterexample to the statement as written: the id `"d"` is
valid, the single sample has a nonnegative timestamp contained in the window
`[0, 300000]`, yet `get` at full fidelity raises `WindowTooLarge` instead of
returning the sample: the claim holds only when the window also passes the
`_subpaths` guard `(end - start) / MAX_DURATION_FULL ≤ 500`. -/
theorem roundtrip_counterexample :
    legalDatasetId "d" = true ∧
    (∀ q ∈ [({ date := 0, value := 1 } : Datapoint)],
      (0:ℚ) ≤ q.date ∧ q.date ≤ 300000) ∧
    getData (put initIndex "d" [{ date := 0, value := 1 }]).1 "d" 0 300000
      (some .FIDELITY_FULL) = .error .windowTooLarge :=
  ⟨by decide, by decide, rfl⟩

/-- Claim C1 (amended): round-trip at full fidelity holds whenever the
window additionally starts at a nonnegative time and spans at most
`500 * MAX_DURATION_FULL` seconds: for a valid id `D`, samples `S` written
into a fresh store by `put`, and a window `[s, e]` containing every
timestamp of `S`, `get(D, s, e, FIDELITY_FULL)` succeeds and returns a list
whose multiset of samples is exactly `S`. -/
theorem roundtrip_full (D : String) (S : List Datapoint) (s e : ℚ)
    (hD : legalDatasetId D = true)
    (hs : 0 ≤ s)
    (hwin : ∀ q ∈ S, s ≤ q.date ∧ q.date ≤ e)
    (hguard : (e - s) / MAX_DURATION_FULL ≤ 500) :
    (fullResult (getData (put initIndex D S).1 D s e (some .FIDELITY_FULL))).map
      (fun l => (l : Multiset Datapoint)) = some (S : Multiset Datapoint) := by
  have hS : ∀ q ∈ S, 0 ≤ q.date := fun q hq => le_trans hs (hwin q hq).1
  obtain ⟨-, -, -, hfull, -⟩ := put_char initIndex D S hD hS
  have hwin' : ∀ q ∈ sortPts (rawPoints S),
      s ≤ q.timestamp ∧ q.timestamp ≤ e := by
    intro q hq
    rcases List.mem_map.1 (((sortPts_perm _).mem_iff).1 hq) with ⟨p, hp, rfl⟩
    exact hwin p hp
  have htimes_nn : ∀ x ∈ stepTimes e (max_duration .FIDELITY_FULL)
      (max_duration_pos .FIDELITY_FULL) s, 0 ≤ x :=
    fun x hx => le_trans hs (stepTimes_mem_ge e _ _ s x hx)
  have hsub : subpaths s e D .FIDELITY_FULL =
      .ok ((stepTimes e (max_duration .FIDELITY_FULL)
        (max_duration_pos .FIDELITY_FULL) s).map
          fun x => shardPathOf x D .FIDELITY_FULL) := by
    have hguard2 : ¬ ((e - s) / max_duration .FIDELITY_FULL > 500) := by
      rw [show max_duration .FIDELITY_FULL = MAX_DURATION_FULL from rfl]
      exact not_lt.2 hguard
    simp only [subpaths]
    rw [if_neg hguard2, pathsFor_ok D .FIDELITY_FULL _ htimes_nn]
  have hget : getData (put initIndex D S).1 D s e (some .FIDELITY_FULL) =
      .ok (.fullData (((stepTimes e (max_duration .FIDELITY_FULL)
          (max_duration_pos .FIDELITY_FULL) s).map
            fun x => shardPathOf x D .FIDELITY_FULL).flatMap
        fun p => read_datapoints ((put initIndex D S).1.fullStore p))) := by
    rw [getData_eq, hsub]
    rfl
  rw [hget]
  simp only [fullResult, Option.map_some']
  refine congrArg some (Multiset.coe_eq_coe.2 ?_)
  have hnd : (((stepTimes e (max_duration .FIDELITY_FULL)
      (max_duration_pos .FIDELITY_FULL) s).map
        fun x => shardPathOf x D .FIDELITY_FULL)).Nodup := by
    refine List.Pairwise.map _ ?_
      (stepTimes_names_sorted e (max_duration .FIDELITY_FULL)
        (max_duration_pos .FIDELITY_FULL) s)
    intro a b hab hc
    have hname := congrArg ShardPath.name hc
    rw [shardPathOf_name, shardPathOf_name] at hname
    omega
  have hcov : ∀ q ∈ sortPts (rawPoints S),
      (fun q : DatapointRec => shardPathOf q.timestamp D .FIDELITY_FULL) q ∈
        ((stepTimes e (max_duration .FIDELITY_FULL)
          (max_duration_pos .FIDELITY_FULL) s).map
            fun x => shardPathOf x D .FIDELITY_FULL) := by
    intro q hq
    obtain ⟨hq1, hq2⟩ := hwin' q hq
    obtain ⟨x, hx, hfx⟩ := stepTimes_cover e (max_duration .FIDELITY_FULL)
      (max_duration_pos .FIDELITY_FULL) s q.timestamp hq1 hq2
    have hpe : shardPathOf q.timestamp D .FIDELITY_FULL =
        shardPathOf x D .FIDELITY_FULL :=
      shardPathOf_congr .FIDELITY_FULL D hfx.symm
    show shardPathOf q.timestamp D .FIDELITY_FULL ∈ _
    rw [hpe]
    exact List.mem_map_of_mem _ hx
  have hperm := flatMap_filter_perm
    ((stepTimes e (max_duration .FIDELITY_FULL)
      (max_duration_pos .FIDELITY_FULL) s).map
        fun x => shardPathOf x D .FIDELITY_FULL)
    (sortPts (rawPoints S))
    (fun q : DatapointRec => shardPathOf q.timestamp D .FIDELITY_FULL) hnd hcov
  have hX : (((stepTimes e (max_duration .FIDELITY_FULL)
      (max_duration_pos .FIDELITY_FULL) s).map
        fun x => shardPathOf x D .FIDELITY_FULL).flatMap
      fun p => read_datapoints ((put initIndex D S).1.fullStore p)) =
      ((((stepTimes e (max_duration .FIDELITY_FULL)
        (max_duration_pos .FIDELITY_FULL) s).map
          fun x => shardPathOf x D .FIDELITY_FULL).flatMap
        fun p => (sortPts (rawPoints S)).filter
          fun q => decide (shardPathOf q.timestamp D .FIDELITY_FULL = p)).map
        fun r => (⟨r.timestamp, r.value⟩ : Datapoint)) := by
    rw [List.map_flatMap]
    refine flatMap_congr_mem _ _ _ fun p _ => ?_
    rw [hfull p]
    show read_datapoints ([] ++ _) = _
    rw [List.nil_append]
    rfl
  rw [hX]
  refine List.Perm.trans (List.Perm.map _ hperm) ?_
  have hmaps : (rawPoints S).map
      (fun r : DatapointRec => (⟨r.timestamp, r.value⟩ : Datapoint)) = S := by
    rw [rawPoints, List.map_map]
    have hfun : ((fun r : DatapointRec => (⟨r.timestamp, r.value⟩ : Datapoint)) ∘
        fun p : Datapoint => (⟨p.date, p.value⟩ : DatapointRec)) = id :=
      funext fun p => rfl
    rw [hfun, List.map_id]
  refine List.Perm.trans (List.Perm.map _ (sortPts_perm (rawPoints S))) ?_
  rw [hmaps]

theorem roundtrip_full_witness :
    (fullResult (getData (put initIndex "d" [{ date := 0, value := 1 }]).1 "d"
        0 100 (some .FIDELITY_FULL))).map (fun l => (l : Multiset Datapoint)) =
      some (([{ date := 0, value := 1 }] : List Datapoint) : Multiset Datapoint) :=
  roundtrip_full "d" [{ date := 0, value := 1 }] 0 100 (by decide) (by decide)
    (by decide) (by decide)
